import Mathlib

/-!
Verification development for the dice-notation engine of this repository
(module dice.js: class DiceRoller with parse/roll/rollAdvantage/rollDisadvantage,
history handling, and the text-scanner passes convertObsidianLinks,
wrapAttackBonuses, wrapDiceNotation, wrapSavingThrows composed by wrapAllDice).

Strings are modelled as lists of characters; the JS regular expressions are
modelled by deterministic matchers that reproduce the leftmost, greedy,
non-overlapping global-replace semantics of the source patterns.
-/

/-! ## Character-level helpers (JS character classes, modelled on code points) -/

/-- JS regex class backslash-s (whitespace): space, tab, LF, VT, FF, CR. -/
def isWS (c : Char) : Bool :=
  c.toNat = 32 || c.toNat = 9 || c.toNat = 10 || c.toNat = 11 || c.toNat = 12 || c.toNat = 13

/-- JS regex class backslash-d: the ASCII digits 0-9. -/
def isDigitC (c : Char) : Bool :=
  48 ≤ c.toNat && c.toNat ≤ 57

/-- JS regex class backslash-w: ASCII letters, digits and underscore. -/
def isWordC (c : Char) : Bool :=
  isDigitC c || (65 ≤ c.toNat && c.toNat ≤ 90) || (97 ≤ c.toNat && c.toNat ≤ 122) || c.toNat = 95

/-- ASCII lower-casing, as String.prototype.toLowerCase acts on the characters
relevant to the dice grammar. -/
def toLowerC (c : Char) : Char :=
  if 65 ≤ c.toNat ∧ c.toNat ≤ 90 then Char.ofNat (c.toNat + 32) else c

/-- notation.toLowerCase().replace(regex backslash-s plus, empty string):
lower-case every character, then drop all whitespace. -/
def cleanL (cs : List Char) : List Char :=
  (cs.map toLowerC).filter (fun c => !(isWS c))

/-- Digit string to number, most significant digit first (JS parseInt on the
digit part of a match; leading zeros are allowed). -/
def digitsToNat (ds : List Char) : Nat :=
  ds.foldl (fun acc c => acc * 10 + (c.toNat - 48)) 0

/-- Greedy split of a maximal digit prefix (regex backslash-d star). -/
def spanDigits (cs : List Char) : List Char × List Char :=
  (cs.takeWhile isDigitC, cs.dropWhile isDigitC)

/-! ## Data model (NotationDescriptor, DieOutcome, RollResult of the spec;
parse/roll result objects of the source) -/

/-- keep.type in the source: kh makes highest, kl makes lowest. -/
inductive KeepType
  | highest
  | lowest
deriving DecidableEq, Repr

/-- The keep object produced by DiceRoller.parseKeep. -/
structure Keep where
  type : KeepType
  count : Nat
deriving DecidableEq, Repr

/-- The object returned by DiceRoller.parse.  The source field spelled like the
word for dice syntax strings (a Lean keyword) is called canonical here; it holds
the cleaned (lower-cased, whitespace-free) input. -/
structure Parsed where
  count : Nat
  sides : Nat
  modifier : Int
  keep : Option Keep
  canonical : String
deriving DecidableEq, Repr

/-- One entry of the rolls array built by DiceRoller.roll. -/
structure DieOutcome where
  value : Nat
  kept : Bool
deriving DecidableEq, Repr

/-- The critical field of a roll result: success on a natural 20, fumble on a
natural 1; the JS null is modelled by Option.none. -/
inductive Crit
  | success
  | fumble
deriving DecidableEq, Repr

/-- The result object built by DiceRoller.roll.  display holds the original
input string (displayNotation in the source), canonical the cleaned one; the
Date.now() timestamp is ambient wall-clock state and is not modelled. -/
structure RollResult where
  canonical : String
  display : String
  rolls : List DieOutcome
  modifier : Int
  diceTotal : Nat
  total : Int
  critical : Option Crit
deriving DecidableEq, Repr

/-! ## DiceRoller.parse -/

/-- The optional keep group (kh backslash-d plus | kl backslash-d plus)? of the
regex in DiceRoller.parse together with DiceRoller.parseKeep.  A leading k that
is not followed by h/l and one or more digits makes the whole match fail,
because the optional group cannot match and no modifier starts with k. -/
def parseKeepOpt : List Char → Option (Option Keep × List Char)
  | [] => some (none, [])
  | c :: rest =>
    if c = 'k' then
      match rest with
      | [] => none
      | c2 :: rest2 =>
        if c2 = 'h' then
          let p := spanDigits rest2
          if p.1 = [] then none else some (some ⟨KeepType.highest, digitsToNat p.1⟩, p.2)
        else if c2 = 'l' then
          let p := spanDigits rest2
          if p.1 = [] then none else some (some ⟨KeepType.lowest, digitsToNat p.1⟩, p.2)
        else none
    else some (none, c :: rest)

/-- The anchored optional modifier group ([+-] backslash-d plus)? dollar of the
regex in DiceRoller.parse: the whole remaining input must be empty or a sign
followed by one or more digits. -/
def parseModEnd : List Char → Option Int
  | [] => some 0
  | c :: ds =>
    if c = '+' then
      if ds ≠ [] ∧ ds.all isDigitC then some (digitsToNat ds) else none
    else if c = '-' then
      if ds ≠ [] ∧ ds.all isDigitC then some (-(digitsToNat ds : Int)) else none
    else none

/-- The main regex of DiceRoller.parse,
caret (backslash-d star) d (backslash-d plus) (keep)? (modifier)? dollar,
on the cleaned input.  An empty count group defaults to 1. -/
def parseDice (cs : List Char) : Option Parsed :=
  match (spanDigits cs).2 with
  | [] => none
  | c :: rest2 =>
    if c = 'd' then
      if (spanDigits rest2).1 = [] then none
      else
        (parseKeepOpt (spanDigits rest2).2).bind fun kr =>
          (parseModEnd kr.2).map fun m =>
            ⟨if (spanDigits cs).1 = [] then 1 else digitsToNat (spanDigits cs).1,
              digitsToNat (spanDigits rest2).1, m, kr.1, ⟨cs⟩⟩
    else none

/-- The fallback branch of DiceRoller.parse: a bare signed or unsigned integer,
caret ([+-]? backslash-d plus) dollar, giving a flat-modifier descriptor. -/
def parseFlat (cs : List Char) : Option Parsed :=
  match cs with
  | [] => none
  | c :: ds =>
    if c = '+' then
      if ds ≠ [] ∧ ds.all isDigitC then some ⟨0, 0, digitsToNat ds, none, ⟨cs⟩⟩ else none
    else if c = '-' then
      if ds ≠ [] ∧ ds.all isDigitC then some ⟨0, 0, -(digitsToNat ds : Int), none, ⟨cs⟩⟩ else none
    else
      if (c :: ds).all isDigitC then some ⟨0, 0, digitsToNat (c :: ds), none, ⟨cs⟩⟩ else none

/-- DiceRoller.parse on an already cleaned character list: try the dice regex,
then the bare-integer fallback; none models the thrown InvalidNotationError. -/
def parseCore (cs : List Char) : Option Parsed :=
  parseDice cs <|> parseFlat cs

/-- DiceRoller.parse: clean the input, then match it. -/
def parse (s : String) : Option Parsed :=
  parseCore (cleanL s.toList)


/-! ## DiceRoller.roll (the resolver) and the roll history

Randomness is injected: draws i is the value produced by the i-th call of
rollDie during one resolution (the spec's RandomSource seam), so resolution is
a pure function of the descriptor and the draw sequence. -/

/-- rolls.map((r, i) => ({value: r.value, index: i})) from DiceRoller.roll. -/
def pairsOf (rolls : List DieOutcome) : List (Nat × Nat) :=
  rolls.enum.map (fun p => (p.2.value, p.1))

/-- The comparator passed to Array.prototype.sort; placing x before y under a
stable sort happens exactly when the comparator does not order y strictly
before x: for highest when y.value is at most x.value, for lowest when x.value
is at most y.value. -/
def keepBefore (t : KeepType) (x y : Nat × Nat) : Bool :=
  match t with
  | KeepType.highest => y.1 ≤ x.1
  | KeepType.lowest => x.1 ≤ y.1

/-- One insertion step of the stable sort. -/
def insertPair (t : KeepType) (x : Nat × Nat) : List (Nat × Nat) → List (Nat × Nat)
  | [] => [x]
  | y :: ys => if keepBefore t x y then x :: y :: ys else y :: insertPair t x ys

/-- Stable sort of the (value, index) pairs, modelling the ES2019-stable
Array.prototype.sort with the comparator of DiceRoller.roll: insertion from the
right keeps earlier draws before later draws on equal values. -/
def sortPairs (t : KeepType) (l : List (Nat × Nat)) : List (Nat × Nat) :=
  l.foldr (insertPair t) []

/-- The first min(keep.count, rolls.length) sorted indices: exactly the dice
whose kept flag the marking loop of DiceRoller.roll sets back to true. -/
def keptIdx (k : Keep) (rolls : List DieOutcome) : List Nat :=
  ((sortPairs k.type (pairsOf rolls)).take (min k.count rolls.length)).map Prod.snd

/-- The keep-rule block of DiceRoller.roll: every kept flag is cleared and the
first min(keep.count, rolls.length) sorted indices are marked kept again. -/
def applyKeep (k : Keep) (rolls : List DieOutcome) : List DieOutcome :=
  rolls.enum.map (fun p => ⟨p.2.value, decide (p.1 ∈ keptIdx k rolls)⟩)

/-- The rolls array after drawing and (when present, on a non-empty pool)
applying the keep rule. -/
def resolveRolls (p : Parsed) (draws : Nat → Nat) : List DieOutcome :=
  let base : List DieOutcome := (List.range p.count).map (fun i => ⟨draws i, true⟩)
  match p.keep with
  | some k => if base.length > 0 then applyKeep k base else base
  | none => base

/-- Sum of the kept values: rolls.filter(kept).reduce(sum, 0). -/
def keptSum (rolls : List DieOutcome) : Nat :=
  (rolls.filter (fun r => r.kept)).foldl (fun s r => s + r.value) 0

/-- The critical detection of DiceRoller.roll: only when sides is 20 and count
is 1, from the value of the single first outcome. -/
def critOf (p : Parsed) (rolls : List DieOutcome) : Option Crit :=
  if p.sides = 20 ∧ p.count = 1 then
    match rolls.head? with
    | some r =>
      if r.value = 20 then some Crit.success
      else if r.value = 1 then some Crit.fumble
      else none
    | none => none
  else none

/-- Assembly of the result object of DiceRoller.roll (all fields except the
unmodelled timestamp). -/
def rollCore (p : Parsed) (display : String) (draws : Nat → Nat) : RollResult :=
  let rolls := resolveRolls p draws
  let diceTotal := keptSum rolls
  { canonical := p.canonical
    display := display
    rolls := rolls
    modifier := p.modifier
    diceTotal := diceTotal
    total := (diceTotal : Int) + p.modifier
    critical := critOf p rolls }

/-- this.maxHistory as set by the DiceRoller constructor. -/
def maxHistory : Nat := 50

/-- history.unshift(result) followed by popping the last (oldest) entry when
the capacity is exceeded. -/
def recordHistory (h : List RollResult) (r : RollResult) : List RollResult :=
  let h2 := r :: h
  if h2.length > maxHistory then h2.dropLast else h2

/-- DiceRoller.roll: parse, resolve, record into the history (newest first).
none models the InvalidNotationError propagated from parse. -/
def roll (s : String) (draws : Nat → Nat) (hist : List RollResult) :
    Option (RollResult × List RollResult) :=
  match parse s with
  | none => none
  | some p =>
    let r := rollCore p s draws
    some (r, recordHistory hist r)

/-! ## rollAdvantage / rollDisadvantage -/

/-- Decimal digits of a natural number (the template-literal rendering of a JS
integer), with a structural fuel argument so that it reduces definitionally;
fuel n always suffices. -/
def natDigitsGo : Nat → Nat → List Char
  | 0, n => [Char.ofNat (48 + n % 10)]
  | fuel + 1, n =>
    if n < 10 then [Char.ofNat (48 + n)]
    else natDigitsGo fuel (n / 10) ++ [Char.ofNat (48 + n % 10)]

/-- Decimal digits of a natural number, most significant first. -/
def natDigits (n : Nat) : List Char :=
  natDigitsGo n n

/-- The template string of rollAdvantage / rollDisadvantage:
modifier at least 0 renders as plus-sign form, negative as the plain JS
rendering, a minus sign followed by digits. -/
def intModStr (m : Int) : List Char :=
  if 0 ≤ m then '+' :: natDigits m.toNat else '-' :: natDigits (-m).toNat

/-- The notation string built by rollAdvantage. -/
def advNotation (m : Int) : String :=
  ⟨"2d20kh1".toList ++ intModStr m⟩

/-- The notation string built by rollDisadvantage. -/
def disNotation (m : Int) : String :=
  ⟨"2d20kl1".toList ++ intModStr m⟩

/-- DiceRoller.rollAdvantage: roll 2d20kh1 with the given modifier. -/
def rollAdvantage (m : Int) (draws : Nat → Nat) (hist : List RollResult) :
    Option (RollResult × List RollResult) :=
  roll (advNotation m) draws hist

/-- DiceRoller.rollDisadvantage: roll 2d20kl1 with the given modifier. -/
def rollDisadvantage (m : Int) (draws : Nat → Nat) (hist : List RollResult) :
    Option (RollResult × List RollResult) :=
  roll (disNotation m) draws hist

/-- Draw sequence reading from a scripted list (1 beyond the script). -/
def scripted (l : List Nat) (i : Nat) : Nat :=
  l.getD i 1


/-! ## The token scanner: global regex replacement engine

String.prototype.replace with a global regex finds leftmost non-overlapping
matches and never rescans replacement text.  scanReplaceGo models this: at each
position the pass-specific matcher either produces (replacement, rest-after-
match) or the character is copied.  The fuel argument (initially the length of
the input, always sufficient because every matcher consumes at least one
character) keeps the recursion structural so that terms reduce definitionally.
-/

/-- One global-replace pass: m cs is some (replacement, rest) when a match
starts exactly at cs. -/
def scanReplaceGo (fuel : Nat) (m : List Char → Option (List Char × List Char)) :
    List Char → List Char
  | [] => []
  | c :: rest =>
    match fuel with
    | 0 => c :: rest
    | fuel + 1 =>
      match m (c :: rest) with
      | some (rep, after) => rep ++ scanReplaceGo fuel m after
      | none => c :: scanReplaceGo fuel m rest

/-- text.replace(pattern-g, replacement) with the matcher m. -/
def scanReplace (m : List Char → Option (List Char × List Char)) (cs : List Char) :
    List Char :=
  scanReplaceGo cs.length m cs

/-- Greedy split of a maximal whitespace prefix (regex backslash-s star). -/
def spanWS (cs : List Char) : List Char × List Char :=
  (cs.takeWhile isWS, cs.dropWhile isWS)

/-- Case-insensitive literal match (the /i flag): returns the matched original
text and the rest. -/
def matchCI : List Char → List Char → Option (List Char × List Char)
  | [], cs => some ([], cs)
  | _ :: _, [] => none
  | p :: ps, c :: cs =>
    if toLowerC c = toLowerC p then (matchCI ps cs).map (fun q => (c :: q.1, q.2)) else none

/-- The span markup produced for a clickable dice token, with the data-dice
attribute dd around the matched text txt. -/
def diceSpan (dd txt : List Char) : List Char :=
  "<span class=\"dice-roll\" data-dice=\"".toList ++ dd ++
    "\" role=\"button\" tabindex=\"0\">".toList ++ txt ++ "</span>".toList

/-- The span markup produced for a keyword converted from a markdown link. -/
def keywordSpan (label : List Char) : List Char :=
  "<span class=\"keyword\">".toList ++ label ++ "</span>".toList

/-- The span markup produced for a saving-throw DC value. -/
def dcSpan (v : List Char) : List Char :=
  "<span class=\"dc-value\" data-dc=\"".toList ++ v ++ "\">".toList ++ v ++ "</span>".toList

/-- match.replace(regex backslash-s plus, empty string): the normalization of a
matched dice substring. -/
def stripWS (cs : List Char) : List Char :=
  cs.filter (fun c => !(isWS c))

/-- Matcher of convertObsidianLinks:
bracket (one or more non-bracket-close) bracket-close paren-open (one or more
non-paren-close) paren-close, replaced by a keyword span around the label. -/
def linksTry (cs : List Char) : Option (List Char × List Char) :=
  match cs with
  | '[' :: rest =>
    let label := rest.takeWhile (fun c => c ≠ ']')
    match rest.dropWhile (fun c => c ≠ ']') with
    | ']' :: '(' :: rest2 =>
      if label = [] then none
      else
        let target := rest2.takeWhile (fun c => c ≠ ')')
        match rest2.dropWhile (fun c => c ≠ ')') with
        | ')' :: rest3 => if target = [] then none else some (keywordSpan label, rest3)
        | _ => none
    | _ => none
  | _ => none

/-- Matcher of the first pattern of wrapAttackBonuses, (Attack: backslash-s
star)([+-] backslash-d plus) with the /gi flags: the prefix group is kept, the
signed bonus becomes a 1d20 dice span. -/
def attackTry (cs : List Char) : Option (List Char × List Char) :=
  match matchCI "attack:".toList cs with
  | none => none
  | some (orig, rest) =>
    let w := spanWS rest
    match w.2 with
    | c :: rest3 =>
      if c = '+' ∨ c = '-' then
        let ds := rest3.takeWhile isDigitC
        if ds = [] then none
        else
          some (orig ++ w.1 ++ diceSpan ("1d20".toList ++ c :: ds) (c :: ds),
            rest3.dropWhile isDigitC)
      else none
    | [] => none

/-- Matcher of the second pattern of wrapAttackBonuses, ([+-] backslash-d
plus)(backslash-s plus to hit) with the /gi flags: the bonus becomes a 1d20
dice span, the whitespace-and-to-hit suffix group is kept. -/
def toHitTry (cs : List Char) : Option (List Char × List Char) :=
  match cs with
  | c :: rest =>
    if c = '+' ∨ c = '-' then
      let ds := rest.takeWhile isDigitC
      if ds = [] then none
      else
        let rest2 := rest.dropWhile isDigitC
        let ws := rest2.takeWhile isWS
        if ws = [] then none
        else
          match matchCI "to hit".toList (rest2.dropWhile isWS) with
          | some (orig, rest4) =>
            some (diceSpan ("1d20".toList ++ c :: ds) (c :: ds) ++ ws ++ orig, rest4)
          | none => none
    else none
  | [] => none

/-- The optional modifier tail (?: backslash-s star [+-] backslash-s star
backslash-d plus)? of the dice pattern of wrapDiceNotation. -/
def diceModTry (cs : List Char) : Option (List Char × List Char) :=
  let w1 := spanWS cs
  match w1.2 with
  | c :: r2 =>
    if c = '+' ∨ c = '-' then
      let w2 := spanWS r2
      let ds := w2.2.takeWhile isDigitC
      if ds = [] then none
      else some (w1.1 ++ c :: (w2.1 ++ ds), w2.2.dropWhile isDigitC)
    else none
  | [] => none

/-- Matcher of wrapDiceNotation, (backslash-d star d backslash-d plus (optional
signed modifier)) with the /gi flags: the match is wrapped in a dice span whose
data-dice attribute is the match with all whitespace stripped. -/
def diceTry (cs : List Char) : Option (List Char × List Char) :=
  let d1 := cs.takeWhile isDigitC
  match cs.dropWhile isDigitC with
  | c :: r2 =>
    if c = 'd' ∨ c = 'D' then
      let d2 := r2.takeWhile isDigitC
      if d2 = [] then none
      else
        let core := d1 ++ c :: d2
        let r3 := r2.dropWhile isDigitC
        match diceModTry r3 with
        | some (mcs, r4) => some (diceSpan (stripWS (core ++ mcs)) (core ++ mcs), r4)
        | none => some (diceSpan (stripWS core) core, r3)
    else none
  | [] => none

/-- Matcher of wrapSavingThrows, (DC backslash-s star)(backslash-d plus)
(backslash-s plus backslash-w plus backslash-s plus saving throw) with the /gi
flags: only the DC value is wrapped, prefix and suffix groups are kept. -/
def dcTry (cs : List Char) : Option (List Char × List Char) :=
  match matchCI "dc".toList cs with
  | none => none
  | some (orig, r1) =>
    let w1 := spanWS r1
    let ds := w1.2.takeWhile isDigitC
    if ds = [] then none
    else
      let r3 := w1.2.dropWhile isDigitC
      let ws2 := r3.takeWhile isWS
      if ws2 = [] then none
      else
        let r4 := r3.dropWhile isWS
        let wd := r4.takeWhile isWordC
        if wd = [] then none
        else
          let r5 := r4.dropWhile isWordC
          let ws3 := r5.takeWhile isWS
          if ws3 = [] then none
          else
            match matchCI "saving throw".toList (r5.dropWhile isWS) with
            | some (orig2, r7) =>
              some (orig ++ w1.1 ++ dcSpan ds ++ ws2 ++ wd ++ ws3 ++ orig2, r7)
            | none => none

/-! ## The tag splitter of wrapDiceNotation

text.split(regex capturing angle-open (one or more non-angle-close)
angle-close) produces the alternation of text parts and tag parts, both kept in
order; joining the parts restores the input. -/

/-- After an angle-open: the tag closes at the first angle-close provided at
least one character stands in between. -/
def grabTag (cs : List Char) : Option (List Char × List Char) :=
  match cs.dropWhile (fun c => c ≠ '>') with
  | [] => none
  | _ :: after =>
    if cs.takeWhile (fun c => c ≠ '>') = [] then none
    else some (cs.takeWhile (fun c => c ≠ '>'), after)

/-- The splitter, with structural fuel (the input length always suffices). -/
def splitTagsGo : Nat → List Char → List Char → List (List Char)
  | _, acc, [] => [acc.reverse]
  | 0, acc, rest => [acc.reverse ++ rest]
  | fuel + 1, acc, c :: rest =>
    if c = '<' then
      match grabTag rest with
      | some (inner, after) =>
        acc.reverse :: (c :: (inner ++ ['>'])) :: splitTagsGo fuel [] after
      | none => splitTagsGo fuel (c :: acc) rest
    else splitTagsGo fuel (c :: acc) rest

/-- text.split on the capturing tag regex. -/
def splitTags (cs : List Char) : List (List Char) :=
  splitTagsGo cs.length [] cs

/-- The per-part map of wrapDiceNotation: parts starting with angle-open are
returned untouched, text parts get the dice replacement. -/
def dicePartMap (p : List Char) : List Char :=
  match p with
  | [] => scanReplace diceTry []
  | c :: rest => if c = '<' then c :: rest else scanReplace diceTry (c :: rest)

/-! ## The four passes and their composition -/

/-- convertObsidianLinks. -/
def convertObsidianLinksL (cs : List Char) : List Char :=
  scanReplace linksTry cs

/-- wrapAttackBonuses: the Attack-colon pattern first, then the to-hit pattern
on its output. -/
def wrapAttackBonusesL (cs : List Char) : List Char :=
  scanReplace toHitTry (scanReplace attackTry cs)

/-- wrapDiceNotation: split at tags, replace only inside parts not starting
with angle-open, join. -/
def wrapDiceNotationL (cs : List Char) : List Char :=
  ((splitTags cs).map dicePartMap).flatten

/-- wrapSavingThrows. -/
def wrapSavingThrowsL (cs : List Char) : List Char :=
  scanReplace dcTry cs

/-- wrapAllDice: links, then attack bonuses, then dice, then saving throws. -/
def wrapAllDiceL (cs : List Char) : List Char :=
  wrapSavingThrowsL (wrapDiceNotationL (wrapAttackBonusesL (convertObsidianLinksL cs)))

/-- wrapAllDice on strings (the annotate operation of the spec). -/
def wrapAllDice (s : String) : String :=
  ⟨wrapAllDiceL s.toList⟩

/-- The ordered list of addressable token attributes in annotated output: the
data-dice and data-dc attribute values, left to right. -/
def extractTokensGo : Nat → List Char → List (List Char)
  | 0, _ => []
  | _, [] => []
  | fuel + 1, c :: rest =>
    if "data-dice=\"".toList.isPrefixOf (c :: rest) then
      let after := (c :: rest).drop "data-dice=\"".toList.length
      after.takeWhile (fun x => x ≠ '"') :: extractTokensGo fuel (after.dropWhile (fun x => x ≠ '"'))
    else if "data-dc=\"".toList.isPrefixOf (c :: rest) then
      let after := (c :: rest).drop "data-dc=\"".toList.length
      after.takeWhile (fun x => x ≠ '"') :: extractTokensGo fuel (after.dropWhile (fun x => x ≠ '"'))
    else extractTokensGo fuel rest

/-- Token attribute values of an annotated string, in text order. -/
def extractTokens (s : String) : List String :=
  (extractTokensGo s.toList.length s.toList).map (fun l => ⟨l⟩)

/-! ## Spec-side definitions

These follow the words of the specification (section 4.1 grammar, section 4.2
step 3 stable-keep characterization), to be compared against the definitions
translated from the source. -/

/-- A possibly empty digit string (the optional count of the spec grammar). -/
def digitsOpt (l : List Char) : Prop :=
  ∀ c ∈ l, isDigitC c = true

/-- A non-empty digit string (sides, keepCount, modifierDigits). -/
def digits1 (l : List Char) : Prop :=
  l ≠ [] ∧ ∀ c ∈ l, isDigitC c = true

/-- The optional keep part of the spec grammar: empty, or kh/kl followed by a
keep count. -/
def specKeepPart (l : List Char) : Prop :=
  l = [] ∨ ∃ k, (l = 'k' :: 'h' :: k ∨ l = 'k' :: 'l' :: k) ∧ digits1 k

/-- The optional modifier part of the spec grammar: empty, or a sign followed
by modifier digits. -/
def specModPart (l : List Char) : Prop :=
  l = [] ∨ ∃ d, (l = '+' :: d ∨ l = '-' :: d) ∧ digits1 d

/-- The dice grammar of spec section 4.1:
optional count, d, sides, optional keep, optional modifier. -/
def specDiceGrammar (cs : List Char) : Prop :=
  ∃ c s k m, cs = c ++ 'd' :: (s ++ k ++ m) ∧
    digitsOpt c ∧ digits1 s ∧ specKeepPart k ∧ specModPart m

/-- A bare signed or unsigned integer (the fallback of spec section 4.1). -/
def specBareInt (cs : List Char) : Prop :=
  ∃ sg d, (sg = [] ∨ sg = ['+'] ∨ sg = ['-']) ∧ cs = sg ++ d ∧ digits1 d

/-- The strict order realized by the stable sort of DiceRoller.roll, stated as
in spec section 4.2 step 3: by value (descending for highest, ascending for
lowest), with ties broken by original draw order (earlier draws first). -/
def lexStrict (t : KeepType) (a b : Nat × Nat) : Prop :=
  match t with
  | KeepType.highest => b.1 < a.1 ∨ (a.1 = b.1 ∧ a.2 < b.2)
  | KeepType.lowest => a.1 < b.1 ∨ (a.1 = b.1 ∧ a.2 < b.2)

/-- Iterated resolution: insert the results of rolling the flat notations plus-0,
plus-1, ... in order, each through DiceRoller.roll with its history side effect. -/
def natHist : Nat → List RollResult
  | 0 => []
  | n + 1 =>
    match roll ⟨'+' :: natDigits n⟩ (fun _ => 1) (natHist n) with
    | some x => x.2
    | none => natHist n

/-- Substring test, used to state that annotate leaves surrounding prose
untouched. -/
def containsSeq (pat cs : List Char) : Bool :=
  cs.tails.any (fun t => pat.isPrefixOf t)

/-! ## Concrete behaviour checks (spec section 8 examples) -/

example : parse "2d6+3" = some ⟨2, 6, 3, none, "2d6+3"⟩ := by decide
example : parse "D20" = some ⟨1, 20, 0, none, "d20"⟩ := by decide
example : parse "4d6kh3" = some ⟨4, 6, 0, some ⟨KeepType.highest, 3⟩, "4d6kh3"⟩ := by decide
example : parse "+5" = some ⟨0, 0, 5, none, "+5"⟩ := by decide
example : parse "-2" = some ⟨0, 0, -2, none, "-2"⟩ := by decide
example : parse " 2 d 20 kl 1 - 4 " = some ⟨2, 20, -4, some ⟨KeepType.lowest, 1⟩, "2d20kl1-4"⟩ := by
  decide
example : parse "2d6kh" = none := by decide
example : parse "fireball" = none := by decide
example : parse "1d0" = some ⟨1, 0, 0, none, "1d0"⟩ := by decide

example :
    (roll "4d6kh3" (scripted [2, 5, 1, 6]) []).map (fun x => (x.1.rolls, x.1.diceTotal)) =
      some ([⟨2, true⟩, ⟨5, true⟩, ⟨1, false⟩, ⟨6, true⟩], 13) := by decide
example :
    (roll "1d20" (scripted [20]) []).map (fun x => x.1.critical) = some (some Crit.success) := by
  decide
example :
    (roll "1d20" (scripted [1]) []).map (fun x => x.1.critical) = some (some Crit.fumble) := by
  decide
example :
    (roll "2d20kh1" (scripted [20, 3]) []).map (fun x => (x.1.critical, x.1.total)) =
      some (none, 20) := by decide
example :
    (roll "1d20kh1" (scripted [20]) []).map (fun x => x.1.critical) =
      some (some Crit.success) := by decide
example : advNotation 4 = "2d20kh1+4" := by decide
example : disNotation (-12) = "2d20kl1-12" := by decide
example :
    (roll "+5" (scripted []) []).map (fun x => (x.1.rolls, x.1.total)) = some ([], 5) := by decide

/-! ## Span lemmas -/

theorem takeWhile_append_all {p : Char → Bool} {a b : List Char} (ha : ∀ c ∈ a, p c = true)
    (hb : ∀ c, b.head? = some c → p c = false) : (a ++ b).takeWhile p = a := by
  induction a with
  | nil =>
    simp only [List.nil_append]
    cases b with
    | nil => rfl
    | cons c t =>
      have := hb c rfl
      simp [List.takeWhile, this]
  | cons x a ih =>
    have hx := ha x (by simp)
    simp only [List.cons_append, List.takeWhile, hx]
    simp only [List.cons.injEq, true_and]
    exact ih (fun c hc => ha c (by simp [hc]))

theorem dropWhile_append_all {p : Char → Bool} {a b : List Char} (ha : ∀ c ∈ a, p c = true)
    (hb : ∀ c, b.head? = some c → p c = false) : (a ++ b).dropWhile p = b := by
  induction a with
  | nil =>
    simp only [List.nil_append]
    cases b with
    | nil => rfl
    | cons c t =>
      have := hb c rfl
      simp [List.dropWhile, this]
  | cons x a ih =>
    have hx := ha x (by simp)
    simp only [List.cons_append, List.dropWhile, hx]
    exact ih (fun c hc => ha c (by simp [hc]))

theorem spanDigits_append {a b : List Char} (ha : ∀ c ∈ a, isDigitC c = true)
    (hb : ∀ c, b.head? = some c → isDigitC c = false) : spanDigits (a ++ b) = (a, b) := by
  simp [spanDigits, takeWhile_append_all ha hb, dropWhile_append_all ha hb]

theorem spanDigits_eq_self {cs : List Char} (h : ∀ c ∈ cs, isDigitC c = true) :
    spanDigits cs = (cs, []) := by
  have := spanDigits_append (b := []) h (fun c hc => by simp at hc)
  simpa using this

/-- The split of spanDigits restores the input. -/
theorem spanDigits_join (cs : List Char) : (spanDigits cs).1 ++ (spanDigits cs).2 = cs :=
  List.takeWhile_append_dropWhile isDigitC cs

/-- Every character of the digit prefix is a digit. -/
theorem spanDigits_all (cs : List Char) : ∀ c ∈ (spanDigits cs).1, isDigitC c = true := by
  intro c hc
  exact List.mem_takeWhile_imp hc

/-- The head of the digit-span remainder is not a digit. -/
theorem spanDigits_rest (cs : List Char) :
    ∀ c, (spanDigits cs).2.head? = some c → isDigitC c = false := by
  intro c hc
  have := List.head?_dropWhile_not (p := isDigitC) (l := cs)
  simp only [spanDigits] at hc
  rw [hc] at this
  simpa using this

/-! ## Parser characterization lemmas -/

theorem parseFlat_cons_plus (ds : List Char) :
    parseFlat ('+' :: ds) =
      if ds ≠ [] ∧ ds.all isDigitC then
        some ⟨0, 0, digitsToNat ds, none, ⟨'+' :: ds⟩⟩ else none := rfl

theorem parseFlat_cons_minus (ds : List Char) :
    parseFlat ('-' :: ds) =
      if ds ≠ [] ∧ ds.all isDigitC then
        some ⟨0, 0, -(digitsToNat ds : Int), none, ⟨'-' :: ds⟩⟩ else none := rfl

theorem parseFlat_cons_other {c : Char} (ds : List Char) (h1 : c ≠ '+') (h2 : c ≠ '-') :
    parseFlat (c :: ds) =
      if (c :: ds).all isDigitC then
        some ⟨0, 0, digitsToNat (c :: ds), none, ⟨c :: ds⟩⟩ else none := by
  simp [parseFlat, if_neg h1, if_neg h2]

theorem parseFlat_isSome_iff (cs : List Char) : (parseFlat cs).isSome ↔ specBareInt cs := by
  cases cs with
  | nil =>
    constructor
    · intro h
      simp [parseFlat] at h
    · rintro ⟨sg, d, hsg, hcs, hd0, -⟩
      exfalso
      rcases hsg with h | h | h <;> subst h
      · exact hd0 (by simpa using hcs.symm)
      · exact List.noConfusion hcs
      · exact List.noConfusion hcs
  | cons c ds =>
    by_cases h1 : c = '+'
    · subst h1
      rw [parseFlat_cons_plus]
      by_cases hcond : ds ≠ [] ∧ ds.all isDigitC = true
      · rw [if_pos hcond]
        simp only [Option.isSome_some, true_iff]
        exact ⟨['+'], ds, Or.inr (Or.inl rfl), rfl, hcond.1, List.all_eq_true.mp hcond.2⟩
      · rw [if_neg hcond]
        simp only [Option.isSome_none, Bool.false_eq_true, false_iff]
        rintro ⟨sg, d, hsg, hcs, hd0, hdall⟩
        rcases hsg with h | h | h <;> subst h
        · simp only [List.nil_append] at hcs
          subst hcs
          exact absurd (hdall '+' (by simp)) (by decide)
        · simp only [List.cons_append, List.cons.injEq, List.nil_append] at hcs
          exact hcond (hcs.2 ▸ ⟨hd0, List.all_eq_true.mpr hdall⟩)
        · simp only [List.cons_append, List.cons.injEq, List.nil_append] at hcs
          exact absurd hcs.1 (by decide)
    · by_cases h2 : c = '-'
      · subst h2
        rw [parseFlat_cons_minus]
        by_cases hcond : ds ≠ [] ∧ ds.all isDigitC = true
        · rw [if_pos hcond]
          simp only [Option.isSome_some, true_iff]
          exact ⟨['-'], ds, Or.inr (Or.inr rfl), rfl, hcond.1, List.all_eq_true.mp hcond.2⟩
        · rw [if_neg hcond]
          simp only [Option.isSome_none, Bool.false_eq_true, false_iff]
          rintro ⟨sg, d, hsg, hcs, hd0, hdall⟩
          rcases hsg with h | h | h <;> subst h
          · simp only [List.nil_append] at hcs
            subst hcs
            exact absurd (hdall '-' (by simp)) (by decide)
          · simp only [List.cons_append, List.cons.injEq, List.nil_append] at hcs
            exact absurd hcs.1 (by decide)
          · simp only [List.cons_append, List.cons.injEq, List.nil_append] at hcs
            exact hcond (hcs.2 ▸ ⟨hd0, List.all_eq_true.mpr hdall⟩)
      · rw [parseFlat_cons_other ds h1 h2]
        by_cases hcond : (c :: ds).all isDigitC = true
        · rw [if_pos hcond]
          simp only [Option.isSome_some, true_iff]
          exact ⟨[], c :: ds, Or.inl rfl, rfl, by simp, List.all_eq_true.mp hcond⟩
        · rw [if_neg hcond]
          simp only [Option.isSome_none, Bool.false_eq_true, false_iff]
          rintro ⟨sg, d, hsg, hcs, hd0, hdall⟩
          rcases hsg with h | h | h <;> subst h
          · simp only [List.nil_append] at hcs
            subst hcs
            exact hcond (List.all_eq_true.mpr hdall)
          · simp only [List.cons_append, List.cons.injEq, List.nil_append] at hcs
            exact h1 hcs.1
          · simp only [List.cons_append, List.cons.injEq, List.nil_append] at hcs
            exact h2 hcs.1

theorem parseModEnd_cons_plus (ds : List Char) :
    parseModEnd ('+' :: ds) =
      if ds ≠ [] ∧ ds.all isDigitC then some ((digitsToNat ds : Int)) else none := rfl

theorem parseModEnd_cons_minus (ds : List Char) :
    parseModEnd ('-' :: ds) =
      if ds ≠ [] ∧ ds.all isDigitC then some (-(digitsToNat ds : Int)) else none := rfl

theorem parseModEnd_cons_other {c : Char} (ds : List Char) (h1 : c ≠ '+') (h2 : c ≠ '-') :
    parseModEnd (c :: ds) = none := by
  simp [parseModEnd, if_neg h1, if_neg h2]

theorem parseModEnd_isSome_iff (m : List Char) : (parseModEnd m).isSome ↔ specModPart m := by
  cases m with
  | nil =>
    simp only [parseModEnd, Option.isSome_some, true_iff]
    exact Or.inl rfl
  | cons c ds =>
    by_cases h1 : c = '+'
    · subst h1
      rw [parseModEnd_cons_plus]
      by_cases hcond : ds ≠ [] ∧ ds.all isDigitC = true
      · rw [if_pos hcond]
        simp only [Option.isSome_some, true_iff]
        exact Or.inr ⟨ds, Or.inl rfl, hcond.1, List.all_eq_true.mp hcond.2⟩
      · rw [if_neg hcond]
        simp only [Option.isSome_none, Bool.false_eq_true, false_iff]
        rintro (h | ⟨d, hd, hd0, hdall⟩)
        · exact List.noConfusion h
        · rcases hd with h | h
          · rw [List.cons.injEq] at h
            exact hcond (h.2 ▸ ⟨hd0, List.all_eq_true.mpr hdall⟩)
          · rw [List.cons.injEq] at h
            exact absurd h.1 (by decide)
    · by_cases h2 : c = '-'
      · subst h2
        rw [parseModEnd_cons_minus]
        by_cases hcond : ds ≠ [] ∧ ds.all isDigitC = true
        · rw [if_pos hcond]
          simp only [Option.isSome_some, true_iff]
          exact Or.inr ⟨ds, Or.inr rfl, hcond.1, List.all_eq_true.mp hcond.2⟩
        · rw [if_neg hcond]
          simp only [Option.isSome_none, Bool.false_eq_true, false_iff]
          rintro (h | ⟨d, hd, hd0, hdall⟩)
          · exact List.noConfusion h
          · rcases hd with h | h
            · rw [List.cons.injEq] at h
              exact absurd h.1 (by decide)
            · rw [List.cons.injEq] at h
              exact hcond (h.2 ▸ ⟨hd0, List.all_eq_true.mpr hdall⟩)
      · rw [parseModEnd_cons_other ds h1 h2]
        simp only [Option.isSome_none, Bool.false_eq_true, false_iff]
        rintro (h | ⟨d, hd, hd0, hdall⟩)
        · exact List.noConfusion h
        · rcases hd with h | h
          · rw [List.cons.injEq] at h
            exact h1 h.1
          · rw [List.cons.injEq] at h
            exact h2 h.1

theorem parseKeepOpt_cons_other {c : Char} (rest : List Char) (hc : c ≠ 'k') :
    parseKeepOpt (c :: rest) = some (none, c :: rest) := by
  simp only [parseKeepOpt]
  rw [if_neg hc]

theorem parseKeepOpt_kh (rest2 : List Char) :
    parseKeepOpt ('k' :: 'h' :: rest2) =
      if (spanDigits rest2).1 = [] then none
      else some (some ⟨KeepType.highest, digitsToNat (spanDigits rest2).1⟩,
        (spanDigits rest2).2) := rfl

theorem parseKeepOpt_kl (rest2 : List Char) :
    parseKeepOpt ('k' :: 'l' :: rest2) =
      if (spanDigits rest2).1 = [] then none
      else some (some ⟨KeepType.lowest, digitsToNat (spanDigits rest2).1⟩,
        (spanDigits rest2).2) := rfl

theorem parseKeepOpt_k_other {c2 : Char} (rest2 : List Char) (h2 : c2 ≠ 'h') (h3 : c2 ≠ 'l') :
    parseKeepOpt ('k' :: c2 :: rest2) = none := by
  simp only [parseKeepOpt]
  rw [if_pos trivial, if_neg h2, if_neg h3]

/-- The tail of the dice regex after the sides digits: the optional keep group
followed by the anchored optional modifier succeeds exactly on a keep part
followed by a modifier part. -/
theorem afterSides_iff (x : List Char) :
    (∃ kp r m, parseKeepOpt x = some (kp, r) ∧ parseModEnd r = some m) ↔
      ∃ k mm, x = k ++ mm ∧ specKeepPart k ∧ specModPart mm := by
  constructor
  · rintro ⟨kp, r, m, hk, hm⟩
    have hmod : specModPart r := parseModEnd_isSome_iff r |>.mp (by rw [hm]; rfl)
    cases x with
    | nil =>
      simp only [parseKeepOpt, Option.some.injEq, Prod.mk.injEq] at hk
      refine ⟨[], [], by simp, Or.inl rfl, ?_⟩
      rw [hk.2]
      exact hmod
    | cons c rest =>
      by_cases hc : c = 'k'
      · subst hc
        cases rest with
        | nil => simp [parseKeepOpt] at hk
        | cons c2 rest2 =>
          by_cases h2 : c2 = 'h'
          · subst h2
            rw [parseKeepOpt_kh] at hk
            by_cases hne : (spanDigits rest2).1 = []
            · rw [if_pos hne] at hk
              exact Option.noConfusion hk
            · rw [if_neg hne] at hk
              rw [Option.some.injEq, Prod.mk.injEq] at hk
              refine ⟨'k' :: 'h' :: (spanDigits rest2).1, r, ?_, ?_, hmod⟩
              · rw [← hk.2]
                simp [spanDigits_join rest2]
              · exact Or.inr ⟨(spanDigits rest2).1, Or.inl rfl, hne, spanDigits_all rest2⟩
          · by_cases h3 : c2 = 'l'
            · subst h3
              rw [parseKeepOpt_kl] at hk
              by_cases hne : (spanDigits rest2).1 = []
              · rw [if_pos hne] at hk
                exact Option.noConfusion hk
              · rw [if_neg hne] at hk
                rw [Option.some.injEq, Prod.mk.injEq] at hk
                refine ⟨'k' :: 'l' :: (spanDigits rest2).1, r, ?_, ?_, hmod⟩
                · rw [← hk.2]
                  simp [spanDigits_join rest2]
                · exact Or.inr ⟨(spanDigits rest2).1, Or.inr rfl, hne, spanDigits_all rest2⟩
            · rw [parseKeepOpt_k_other rest2 h2 h3] at hk
              exact Option.noConfusion hk
      · rw [parseKeepOpt_cons_other rest hc, Option.some.injEq, Prod.mk.injEq] at hk
        refine ⟨[], c :: rest, by simp, Or.inl rfl, ?_⟩
        rw [hk.2]
        exact hmod
  · rintro ⟨k, mm, hx, hkeep, hmod⟩
    have hmodHead : ∀ c, mm.head? = some c → isDigitC c = false := by
      rcases hmod with h | ⟨d, hd, -, -⟩
      · subst h
        intro c hc
        exact Option.noConfusion hc
      · rcases hd with h | h <;> subst h <;> intro c hc <;>
          (rw [List.head?_cons, Option.some.injEq] at hc; subst hc; decide)
    obtain ⟨m, hm⟩ := Option.isSome_iff_exists.mp (parseModEnd_isSome_iff mm |>.mpr hmod)
    rcases hkeep with h | ⟨kd, hkd, hkd0, hkdall⟩
    · subst h
      simp only [List.nil_append] at hx
      subst hx
      cases x with
      | nil => exact ⟨none, [], 0, rfl, rfl⟩
      | cons c rest =>
        have hc : c ≠ 'k' := by
          rcases hmod with h | ⟨d, hd, -, -⟩
          · exact List.noConfusion h
          · rcases hd with h | h <;> (rw [List.cons.injEq] at h; rw [h.1]; decide)
        exact ⟨none, c :: rest, m, parseKeepOpt_cons_other rest hc, hm⟩
    · have hspan : spanDigits (kd ++ mm) = (kd, mm) :=
        spanDigits_append (fun c hc => hkdall c hc) hmodHead
      rcases hkd with h | h <;> subst h
      · refine ⟨some ⟨KeepType.highest, digitsToNat kd⟩, mm, m, ?_, hm⟩
        rw [List.cons_append, List.cons_append] at hx
        subst hx
        rw [parseKeepOpt_kh, hspan]
        simp [hkd0]
      · refine ⟨some ⟨KeepType.lowest, digitsToNat kd⟩, mm, m, ?_, hm⟩
        rw [List.cons_append, List.cons_append] at hx
        subst hx
        rw [parseKeepOpt_kl, hspan]
        simp [hkd0]

theorem parseDice_eq_nil {cs : List Char} (hsplit : (spanDigits cs).2 = []) :
    parseDice cs = none := by
  simp only [parseDice]
  rw [hsplit]

theorem parseDice_eq_cons {cs : List Char} {c : Char} {rest2 : List Char}
    (hsplit : (spanDigits cs).2 = c :: rest2) :
    parseDice cs =
      (if c = 'd' then
        if (spanDigits rest2).1 = [] then none
        else
          (parseKeepOpt (spanDigits rest2).2).bind fun kr =>
            (parseModEnd kr.2).map fun m =>
              ⟨if (spanDigits cs).1 = [] then 1 else digitsToNat (spanDigits cs).1,
                digitsToNat (spanDigits rest2).1, m, kr.1, ⟨cs⟩⟩
      else none) := by
  simp only [parseDice]
  rw [hsplit]

theorem keepMod_head_not_digit {k mm : List Char} (hkeep : specKeepPart k)
    (hmod : specModPart mm) : ∀ c, (k ++ mm).head? = some c → isDigitC c = false := by
  rcases hkeep with h | ⟨kd, hkd, -, -⟩
  · subst h
    rw [List.nil_append]
    rcases hmod with h | ⟨d, hd, -, -⟩
    · subst h
      intro c hc
      exact Option.noConfusion hc
    · rcases hd with h | h <;> subst h <;> intro c hc <;>
        (rw [List.head?_cons, Option.some.injEq] at hc; subst hc; decide)
  · rcases hkd with h | h <;> subst h <;> intro c hc <;>
      (rw [List.cons_append, List.head?_cons, Option.some.injEq] at hc; subst hc; decide)

theorem parseDice_isSome_iff (cs : List Char) : (parseDice cs).isSome ↔ specDiceGrammar cs := by
  constructor
  · intro h
    rcases hsplit : (spanDigits cs).2 with - | ⟨c, rest2⟩
    · rw [parseDice_eq_nil hsplit] at h
      exact absurd h (by simp)
    · rw [parseDice_eq_cons hsplit] at h
      by_cases hc : c = 'd'
      · subst hc
        rw [if_pos rfl] at h
        by_cases hq : (spanDigits rest2).1 = []
        · rw [if_pos hq] at h
          exact absurd h (by simp)
        · rw [if_neg hq] at h
          rcases hkp : parseKeepOpt (spanDigits rest2).2 with - | ⟨kp, rest4⟩
          · rw [hkp, Option.none_bind] at h
            exact absurd h (by simp)
          · rw [hkp, Option.some_bind] at h
            rcases hm : parseModEnd rest4 with - | m
            · rw [show parseModEnd (kp, rest4).2 = parseModEnd rest4 from rfl, hm] at h
              exact absurd h (by simp)
            obtain ⟨k, mm, hx, hkeep, hmod⟩ :=
              (afterSides_iff (spanDigits rest2).2).mp ⟨kp, rest4, m, hkp, hm⟩
            refine ⟨(spanDigits cs).1, (spanDigits rest2).1, k, mm, ?_,
              spanDigits_all cs, ⟨hq, spanDigits_all rest2⟩, hkeep, hmod⟩
            have h1 : (spanDigits cs).1 ++ 'd' :: rest2 = cs := by
              rw [← hsplit]
              exact spanDigits_join cs
            have h2 : (spanDigits rest2).1 ++ (spanDigits rest2).2 = rest2 :=
              spanDigits_join rest2
            conv_lhs => rw [← h1, ← h2, hx]
            simp only [List.append_assoc]
      · rw [if_neg hc] at h
        exact absurd h (by simp)
  · rintro ⟨cnt, s, k, mm, hcs, hcnt, hs, hkeep, hmod⟩
    have hdHead : ∀ x, ('d' :: (s ++ k ++ mm)).head? = some x → isDigitC x = false := by
      intro x hx
      rw [List.head?_cons, Option.some.injEq] at hx
      subst hx
      decide
    have hspan1 : spanDigits cs = (cnt, 'd' :: (s ++ k ++ mm)) := by
      rw [hcs]
      exact spanDigits_append hcnt hdHead
    have hsplit : (spanDigits cs).2 = 'd' :: (s ++ (k ++ mm)) := by
      rw [hspan1]
      simp [List.append_assoc]
    rw [parseDice_eq_cons hsplit, if_pos rfl]
    have hspan2 : spanDigits (s ++ (k ++ mm)) = (s, k ++ mm) :=
      spanDigits_append hs.2 (keepMod_head_not_digit hkeep hmod)
    have hq1 : (spanDigits (s ++ (k ++ mm))).1 = s := by rw [hspan2]
    have hq2 : (spanDigits (s ++ (k ++ mm))).2 = k ++ mm := by rw [hspan2]
    rw [hq1, hq2]
    obtain ⟨kp, r, m, hkp, hm⟩ := (afterSides_iff (k ++ mm)).mpr ⟨k, mm, rfl, hkeep, hmod⟩
    rw [if_neg hs.1, hkp, Option.some_bind]
    simp [hm]

theorem parseCore_isSome_iff (cs : List Char) :
    (parseCore cs).isSome ↔ specDiceGrammar cs ∨ specBareInt cs := by
  unfold parseCore
  rcases hd : parseDice cs with - | p
  · rw [Option.none_orElse, parseFlat_isSome_iff]
    constructor
    · exact Or.inr
    · rintro (h | h)
      · have := (parseDice_isSome_iff cs).mpr h
        rw [hd] at this
        exact absurd this (by simp)
      · exact h
  · rw [Option.some_orElse]
    simp only [Option.isSome_some, true_iff]
    exact Or.inl ((parseDice_isSome_iff cs).mp (by rw [hd]; rfl))

theorem parseDice_canonical {cs : List Char} {p : Parsed} (h : parseDice cs = some p) :
    p.canonical = ⟨cs⟩ := by
  rcases hsplit : (spanDigits cs).2 with - | ⟨c, rest2⟩
  · rw [parseDice_eq_nil hsplit] at h
    exact Option.noConfusion h
  · rw [parseDice_eq_cons hsplit] at h
    by_cases hc : c = 'd'
    · rw [if_pos hc] at h
      by_cases hq : (spanDigits rest2).1 = []
      · rw [if_pos hq] at h
        exact Option.noConfusion h
      · rw [if_neg hq] at h
        rcases hkp : parseKeepOpt (spanDigits rest2).2 with - | ⟨kp, rest4⟩
        · rw [hkp, Option.none_bind] at h
          exact Option.noConfusion h
        · rw [hkp, Option.some_bind] at h
          rcases hm : parseModEnd rest4 with - | m
          · rw [show parseModEnd (kp, rest4).2 = parseModEnd rest4 from rfl, hm] at h
            exact Option.noConfusion h
          · rw [show parseModEnd (kp, rest4).2 = parseModEnd rest4 from rfl, hm] at h
            rw [Option.map_some', Option.some.injEq] at h
            rw [← h]
    · rw [if_neg hc] at h
      exact Option.noConfusion h

theorem parseFlat_canonical {cs : List Char} {p : Parsed} (h : parseFlat cs = some p) :
    p.canonical = ⟨cs⟩ := by
  cases cs with
  | nil => exact Option.noConfusion h
  | cons c ds =>
    by_cases h1 : c = '+'
    · subst h1
      rw [parseFlat_cons_plus] at h
      by_cases hcond : ds ≠ [] ∧ ds.all isDigitC = true
      · rw [if_pos hcond, Option.some.injEq] at h
        rw [← h]
      · rw [if_neg hcond] at h
        exact Option.noConfusion h
    · by_cases h2 : c = '-'
      · subst h2
        rw [parseFlat_cons_minus] at h
        by_cases hcond : ds ≠ [] ∧ ds.all isDigitC = true
        · rw [if_pos hcond, Option.some.injEq] at h
          rw [← h]
        · rw [if_neg hcond] at h
          exact Option.noConfusion h
      · rw [parseFlat_cons_other ds h1 h2] at h
        by_cases hcond : (c :: ds).all isDigitC = true
        · rw [if_pos hcond, Option.some.injEq] at h
          rw [← h]
        · rw [if_neg hcond] at h
          exact Option.noConfusion h

theorem parseCore_canonical {cs : List Char} {p : Parsed} (h : parseCore cs = some p) :
    p.canonical = ⟨cs⟩ := by
  unfold parseCore at h
  rcases hd : parseDice cs with - | q
  · rw [hd, Option.none_orElse] at h
    exact parseFlat_canonical h
  · rw [hd, Option.some_orElse, Option.some.injEq] at h
    exact h ▸ parseDice_canonical hd

theorem digit_toLowerC {c : Char} (h : isDigitC c = true) : toLowerC c = c := by
  simp only [isDigitC, Bool.and_eq_true, decide_eq_true_eq] at h
  unfold toLowerC
  rw [if_neg (by omega : ¬(65 ≤ c.toNat ∧ c.toNat ≤ 90))]

theorem digit_not_WS {c : Char} (h : isDigitC c = true) : isWS c = false := by
  simp only [isDigitC, Bool.and_eq_true, decide_eq_true_eq] at h
  simp only [isWS, Bool.or_eq_false_iff, decide_eq_false_iff_not]
  omega

theorem cleanL_fixed {cs : List Char} (h : ∀ c ∈ cs, toLowerC c = c ∧ isWS c = false) :
    cleanL cs = cs := by
  unfold cleanL
  rw [List.map_congr_left (fun c hc => (h c hc).1)]
  rw [show List.map (fun c => c) cs = cs from List.map_id cs]
  rw [List.filter_eq_self.mpr]
  intro c hc
  rw [(h c hc).2]
  rfl

theorem grammar_char_facts {cs : List Char} (h : specDiceGrammar cs ∨ specBareInt cs) :
    ∀ c ∈ cs, toLowerC c = c ∧ isWS c = false := by
  have hdig : ∀ c : Char, isDigitC c = true → toLowerC c = c ∧ isWS c = false :=
    fun c hc => ⟨digit_toLowerC hc, digit_not_WS hc⟩
  rcases h with ⟨cnt, s, k, mm, hcs, hcnt, hs, hkeep, hmod⟩ | ⟨sg, d, hsg, hcs, -, hdall⟩
  · subst hcs
    intro c hc
    rw [List.mem_append, List.mem_cons] at hc
    rcases hc with hc | rfl | hc
    · exact hdig c (hcnt c hc)
    · exact ⟨by decide, by decide⟩
    · rw [List.mem_append, List.mem_append] at hc
      rcases hc with (hc | hc) | hc
      · exact hdig c (hs.2 c hc)
      · rcases hkeep with rfl | ⟨kd, hkd, -, hkdall⟩
        · exact absurd hc (List.not_mem_nil c)
        · rcases hkd with rfl | rfl <;>
            (rw [List.mem_cons, List.mem_cons] at hc;
             rcases hc with rfl | rfl | hc;
             · exact ⟨by decide, by decide⟩
             · exact ⟨by decide, by decide⟩
             · exact hdig c (hkdall c hc))
      · rcases hmod with rfl | ⟨d, hd, -, hdall⟩
        · exact absurd hc (List.not_mem_nil c)
        · rcases hd with rfl | rfl <;>
            (rw [List.mem_cons] at hc;
             rcases hc with rfl | hc;
             · exact ⟨by decide, by decide⟩
             · exact hdig c (hdall c hc))
  · subst hcs
    intro c hc
    rw [List.mem_append] at hc
    rcases hc with hc | hc
    · rcases hsg with rfl | rfl | rfl
      · exact absurd hc (List.not_mem_nil c)
      · rw [List.mem_singleton] at hc
        subst hc
        exact ⟨by decide, by decide⟩
      · rw [List.mem_singleton] at hc
        subst hc
        exact ⟨by decide, by decide⟩
    · exact hdig c (hdall c hc)

/-- A successfully matched input is already in canonical form: cleaning it
again changes nothing. -/
theorem parseCore_clean_fixed {cs : List Char} {p : Parsed} (h : parseCore cs = some p) :
    cleanL cs = cs :=
  cleanL_fixed (grammar_char_facts ((parseCore_isSome_iff cs).mp (by rw [h]; rfl)))

/-- Core of the idempotence property: re-parsing the canonical form of a
successful parse reproduces the same descriptor. -/
theorem parse_canonical_idem_core {x : String} {p : Parsed} (h : parse x = some p) :
    parse p.canonical = some p := by
  unfold parse at h ⊢
  have hcan := parseCore_canonical h
  have hfix := parseCore_clean_fixed h
  rw [hcan]
  rw [show (String.mk (cleanL x.toList)).toList = cleanL x.toList from rfl, hfix]
  exact h

theorem parseDice_none_of_bareInt {cs : List Char} (h : specBareInt cs) :
    parseDice cs = none := by
  obtain ⟨sg, d, hsg, hcs, hd0, hdall⟩ := h
  rcases hsg with rfl | rfl | rfl
  · simp only [List.nil_append] at hcs
    subst hcs
    exact parseDice_eq_nil (by rw [spanDigits_eq_self hdall])
  · subst hcs
    have hsplit : (spanDigits (['+'] ++ d)).2 = '+' :: d := by
      have h2 : spanDigits ([] ++ '+' :: d) = ([], '+' :: d) :=
        spanDigits_append (by intro c hc; exact absurd hc (List.not_mem_nil c))
          (by intro c hc; rw [List.head?_cons, Option.some.injEq] at hc; subst hc; decide)
      rw [show (['+'] ++ d : List Char) = '+' :: d from rfl, show ('+' :: d : List Char) = [] ++ '+' :: d from rfl, h2]
      rfl
    rw [parseDice_eq_cons hsplit, if_neg (by decide : ¬('+' : Char) = 'd')]
  · subst hcs
    have hsplit : (spanDigits (['-'] ++ d)).2 = '-' :: d := by
      have h2 : spanDigits ([] ++ '-' :: d) = ([], '-' :: d) :=
        spanDigits_append (by intro c hc; exact absurd hc (List.not_mem_nil c))
          (by intro c hc; rw [List.head?_cons, Option.some.injEq] at hc; subst hc; decide)
      rw [show (['-'] ++ d : List Char) = '-' :: d from rfl, show ('-' :: d : List Char) = [] ++ '-' :: d from rfl, h2]
      rfl
    rw [parseDice_eq_cons hsplit, if_neg (by decide : ¬('-' : Char) = 'd')]

theorem parseCore_of_bareInt {cs : List Char} (h : specBareInt cs) :
    parseCore cs = parseFlat cs := by
  unfold parseCore
  rw [parseDice_none_of_bareInt h, Option.none_orElse]

/-- Every descriptor produced by the bare-integer fallback is a pure flat
modifier: no dice, no sides, no keep rule. -/
theorem parseFlat_shape {cs : List Char} {p : Parsed} (h : parseFlat cs = some p) :
    p.count = 0 ∧ p.sides = 0 ∧ p.keep = none := by
  cases cs with
  | nil => exact Option.noConfusion h
  | cons c ds =>
    by_cases h1 : c = '+'
    · subst h1
      rw [parseFlat_cons_plus] at h
      by_cases hcond : ds ≠ [] ∧ ds.all isDigitC = true
      · rw [if_pos hcond, Option.some.injEq] at h
        rw [← h]
        exact ⟨rfl, rfl, rfl⟩
      · rw [if_neg hcond] at h
        exact Option.noConfusion h
    · by_cases h2 : c = '-'
      · subst h2
        rw [parseFlat_cons_minus] at h
        by_cases hcond : ds ≠ [] ∧ ds.all isDigitC = true
        · rw [if_pos hcond, Option.some.injEq] at h
          rw [← h]
          exact ⟨rfl, rfl, rfl⟩
        · rw [if_neg hcond] at h
          exact Option.noConfusion h
      · rw [parseFlat_cons_other ds h1 h2] at h
        by_cases hcond : (c :: ds).all isDigitC = true
        · rw [if_pos hcond, Option.some.injEq] at h
          rw [← h]
          exact ⟨rfl, rfl, rfl⟩
        · rw [if_neg hcond] at h
          exact Option.noConfusion h

/-! ## Stable-sort lemmas for the keep rule -/


theorem lex_trans {t : KeepType} {a b c : Nat × Nat} (h1 : lexStrict t a b) (h2 : lexStrict t b c) :
    lexStrict t a c := by
  cases t <;> simp only [lexStrict] at * <;> omega

theorem keepBefore_lex {t : KeepType} {x y : Nat × Nat} (hidx : x.2 < y.2)
    (h : keepBefore t x y = true) : lexStrict t x y := by
  cases t <;> simp only [keepBefore, decide_eq_true_eq] at h <;> simp only [lexStrict] <;> omega

theorem keepBefore_lex_rev {t : KeepType} {x y : Nat × Nat} (h : keepBefore t x y = false) :
    lexStrict t y x := by
  cases t <;> simp only [keepBefore, decide_eq_false_iff_not] at h <;> simp only [lexStrict] <;>
    omega

theorem insertPair_perm (t : KeepType) (x : Nat × Nat) (l : List (Nat × Nat)) :
    (insertPair t x l).Perm (x :: l) := by
  induction l with
  | nil => exact List.Perm.refl _
  | cons y ys ih =>
    unfold insertPair
    by_cases h : keepBefore t x y = true
    · rw [if_pos h]
    · rw [if_neg (by simp [h])]
      exact (ih.cons y).trans (List.Perm.swap x y ys)

theorem mem_insertPair {t : KeepType} {x a : Nat × Nat} {l : List (Nat × Nat)} :
    a ∈ insertPair t x l ↔ a = x ∨ a ∈ l := by
  rw [(insertPair_perm t x l).mem_iff, List.mem_cons]

theorem sortPairs_perm (t : KeepType) (l : List (Nat × Nat)) : (sortPairs t l).Perm l := by
  induction l with
  | nil => exact List.Perm.refl _
  | cons a l ih =>
    exact (insertPair_perm t a (sortPairs t l)).trans (ih.cons a)

theorem insertPair_pairwise {t : KeepType} {x : Nat × Nat} {l : List (Nat × Nat)}
    (hl : List.Pairwise (lexStrict t) l) (hidx : ∀ y ∈ l, x.2 < y.2) :
    List.Pairwise (lexStrict t) (insertPair t x l) := by
  induction l with
  | nil => exact List.pairwise_singleton _ x
  | cons y ys ih =>
    rw [List.pairwise_cons] at hl
    unfold insertPair
    by_cases h : keepBefore t x y = true
    · rw [if_pos h]
      rw [List.pairwise_cons]
      refine ⟨?_, List.pairwise_cons.mpr ⟨hl.1, hl.2⟩⟩
      intro z hz
      rw [List.mem_cons] at hz
      rcases hz with rfl | hz
      · exact keepBefore_lex (hidx z (by simp)) h
      · exact lex_trans (keepBefore_lex (hidx y (by simp)) h) (hl.1 z hz)
    · rw [if_neg (by simp [h])]
      rw [List.pairwise_cons]
      constructor
      · intro z hz
        rw [mem_insertPair] at hz
        rcases hz with rfl | hz
        · exact keepBefore_lex_rev (by simpa using h)
        · exact hl.1 z hz
      · exact ih hl.2 (fun z hz => hidx z (by simp [hz]))

/-- The sorted pair list is strictly ordered by value with draw-order
tie-break, provided the input also lists indices in draw order. -/
theorem sortPairs_pairwise {t : KeepType} {l : List (Nat × Nat)}
    (h : List.Pairwise (fun a b => a.2 < b.2) l) :
    List.Pairwise (lexStrict t) (sortPairs t l) := by
  induction l with
  | nil => exact List.Pairwise.nil
  | cons a l ih =>
    rw [List.pairwise_cons] at h
    refine insertPair_pairwise (ih h.2) ?_
    intro y hy
    exact h.1 y ((sortPairs_perm t l).mem_iff.mp hy)

theorem pairsOf_pairwise (rolls : List DieOutcome) :
    List.Pairwise (fun a b => a.2 < b.2) (pairsOf rolls) := by
  unfold pairsOf
  rw [List.pairwise_map]
  have h1 : List.Pairwise (fun a b : Nat × DieOutcome => a.1 < b.1) rolls.enum := by
    rw [← List.pairwise_map (f := Prod.fst)]
    rw [show rolls.enum = rolls.enumFrom 0 from rfl, List.enumFrom_map_fst]
    rw [← List.range_eq_range']
    exact List.pairwise_lt_range rolls.length
  exact h1.imp (fun h => h)

theorem pairsOf_map_snd (rolls : List DieOutcome) :
    (pairsOf rolls).map Prod.snd = List.range rolls.length := by
  unfold pairsOf
  rw [List.map_map]
  rw [show (Prod.snd ∘ fun p : Nat × DieOutcome => (p.2.value, p.1)) = Prod.fst from rfl]
  rw [show rolls.enum = rolls.enumFrom 0 from rfl, List.enumFrom_map_fst]
  rw [← List.range_eq_range']

theorem keptIdx_eq_take (k : Keep) (rolls : List DieOutcome) :
    keptIdx k rolls =
      ((sortPairs k.type (pairsOf rolls)).map Prod.snd).take (min k.count rolls.length) := by
  unfold keptIdx
  rw [List.map_take]

theorem sorted_map_snd_perm (k : Keep) (rolls : List DieOutcome) :
    ((sortPairs k.type (pairsOf rolls)).map Prod.snd).Perm (List.range rolls.length) := by
  rw [← pairsOf_map_snd]
  exact (sortPairs_perm k.type (pairsOf rolls)).map Prod.snd

theorem keptIdx_nodup (k : Keep) (rolls : List DieOutcome) : (keptIdx k rolls).Nodup := by
  rw [keptIdx_eq_take]
  exact ((sorted_map_snd_perm k rolls).nodup_iff.mpr (List.nodup_range _)).sublist
    (List.take_sublist _ _)

theorem keptIdx_subset (k : Keep) (rolls : List DieOutcome) :
    ∀ i ∈ keptIdx k rolls, i < rolls.length := by
  intro i hi
  rw [keptIdx_eq_take] at hi
  have := (sorted_map_snd_perm k rolls).mem_iff.mp (List.mem_of_mem_take hi)
  exact List.mem_range.mp this

theorem keptIdx_length (k : Keep) (rolls : List DieOutcome) :
    (keptIdx k rolls).length = min k.count rolls.length := by
  rw [keptIdx_eq_take, List.length_take]
  rw [List.length_map, (sortPairs_perm k.type (pairsOf rolls)).length_eq]
  rw [show (pairsOf rolls).length = rolls.length by
    unfold pairsOf; rw [List.length_map, List.enum_length]]
  omega

theorem countP_mem_range {S : List Nat} {n : Nat} (hnd : S.Nodup) (hsub : ∀ i ∈ S, i < n) :
    ((List.range n).countP (fun i => decide (i ∈ S))) = S.length := by
  rw [List.countP_eq_length_filter]
  have hperm : ((List.range n).filter (fun i => decide (i ∈ S))).Perm S := by
    apply (List.perm_ext_iff_of_nodup ((List.nodup_range n).filter _) hnd).mpr
    intro a
    rw [List.mem_filter, List.mem_range, decide_eq_true_eq]
    constructor
    · exact fun h => h.2
    · exact fun h => ⟨hsub a h, h⟩
  exact hperm.length_eq

theorem applyKeep_kept_count (k : Keep) (rolls : List DieOutcome) :
    ((applyKeep k rolls).filter (fun r => r.kept)).length = min k.count rolls.length := by
  unfold applyKeep
  rw [← List.countP_eq_length_filter, List.countP_map]
  have h1 : ((fun r : DieOutcome => r.kept) ∘ fun p : Nat × DieOutcome =>
      (⟨p.2.value, decide (p.1 ∈ keptIdx k rolls)⟩ : DieOutcome)) =
      fun p : Nat × DieOutcome => decide (p.1 ∈ keptIdx k rolls) := rfl
  rw [h1]
  have h2 : rolls.enum.countP (fun p => decide (p.1 ∈ keptIdx k rolls)) =
      (rolls.enum.map Prod.fst).countP (fun i => decide (i ∈ keptIdx k rolls)) := by
    rw [List.countP_map]
    rfl
  rw [h2]
  rw [show rolls.enum = rolls.enumFrom 0 from rfl, List.enumFrom_map_fst, ← List.range_eq_range']
  rw [countP_mem_range (keptIdx_nodup k rolls) (keptIdx_subset k rolls)]
  exact keptIdx_length k rolls

theorem applyKeep_values (k : Keep) (rolls : List DieOutcome) :
    (applyKeep k rolls).map (fun r => r.value) = rolls.map (fun r => r.value) := by
  unfold applyKeep
  rw [List.map_map]
  rw [show ((fun r : DieOutcome => r.value) ∘ fun p : Nat × DieOutcome =>
    (⟨p.2.value, decide (p.1 ∈ keptIdx k rolls)⟩ : DieOutcome)) =
    ((fun r : DieOutcome => r.value) ∘ Prod.snd) from rfl]
  rw [← List.map_map]
  rw [show rolls.enum = rolls.enumFrom 0 from rfl, List.enumFrom_map_snd]

theorem resolveRolls_none {p : Parsed} (hk : p.keep = none) (draws : Nat → Nat) :
    resolveRolls p draws = (List.range p.count).map (fun i => ⟨draws i, true⟩) := by
  simp only [resolveRolls]
  rw [hk]

theorem resolveRolls_some {p : Parsed} {k : Keep} (hk : p.keep = some k) (draws : Nat → Nat) :
    resolveRolls p draws =
      (if ((List.range p.count).map (fun i => (⟨draws i, true⟩ : DieOutcome))).length > 0 then
        applyKeep k ((List.range p.count).map fun i => ⟨draws i, true⟩)
      else (List.range p.count).map fun i => ⟨draws i, true⟩) := by
  simp only [resolveRolls]
  rw [hk]

theorem resolveRolls_values (p : Parsed) (draws : Nat → Nat) :
    (resolveRolls p draws).map (fun r => r.value) = (List.range p.count).map draws := by
  rcases hk : p.keep with - | k
  · rw [resolveRolls_none hk, List.map_map]
    rfl
  · rw [resolveRolls_some hk]
    by_cases h : 0 < ((List.range p.count).map (fun i => (⟨draws i, true⟩ : DieOutcome))).length
    · rw [if_pos h, applyKeep_values, List.map_map]
      rfl
    · rw [if_neg h, List.map_map]
      rfl

theorem resolveRolls_kept_count {p : Parsed} {k : Keep} (hk : p.keep = some k)
    (draws : Nat → Nat) :
    ((resolveRolls p draws).filter (fun r => r.kept)).length = min k.count p.count := by
  rw [resolveRolls_some hk]
  have hlen : ((List.range p.count).map (fun i => (⟨draws i, true⟩ : DieOutcome))).length
      = p.count := by
    rw [List.length_map, List.length_range]
  by_cases h : 0 < ((List.range p.count).map (fun i => (⟨draws i, true⟩ : DieOutcome))).length
  · rw [if_pos h, applyKeep_kept_count, hlen]
  · rw [if_neg h]
    have h0 : p.count = 0 := by omega
    have hnil : (List.range p.count).map (fun i => (⟨draws i, true⟩ : DieOutcome)) = [] :=
      List.length_eq_zero.mp (by omega)
    rw [hnil, h0]
    simp

theorem foldl_add_value (l : List DieOutcome) (n : Nat) :
    l.foldl (fun s r => s + r.value) n = n + (l.map (fun r => r.value)).sum := by
  induction l generalizing n with
  | nil => simp
  | cons a l ih =>
    rw [List.foldl_cons, ih, List.map_cons, List.sum_cons]
    omega

theorem keptSum_eq (rolls : List DieOutcome) :
    keptSum rolls = ((rolls.filter (fun r => r.kept)).map (fun r => r.value)).sum := by
  unfold keptSum
  rw [foldl_add_value]
  omega

/-! ## Roll-level helper lemmas -/

theorem roll_eq {s : String} {p : Parsed} (hp : parse s = some p) (draws : Nat → Nat)
    (hist : List RollResult) :
    roll s draws hist =
      some (rollCore p s draws, recordHistory hist (rollCore p s draws)) := by
  simp only [roll]
  rw [hp]

theorem roll_none {s : String} (hp : parse s = none) (draws : Nat → Nat)
    (hist : List RollResult) : roll s draws hist = none := by
  simp only [roll]
  rw [hp]

theorem rollCore_fields (p : Parsed) (s : String) (draws : Nat → Nat) :
    (rollCore p s draws).rolls = resolveRolls p draws ∧
    (rollCore p s draws).modifier = p.modifier ∧
    (rollCore p s draws).diceTotal = keptSum (resolveRolls p draws) ∧
    (rollCore p s draws).total = (keptSum (resolveRolls p draws) : Int) + p.modifier ∧
    (rollCore p s draws).critical = critOf p (resolveRolls p draws) ∧
    (rollCore p s draws).display = s ∧
    (rollCore p s draws).canonical = p.canonical :=
  ⟨rfl, rfl, rfl, rfl, rfl, rfl, rfl⟩

theorem critOf_iff (p : Parsed) (rolls : List DieOutcome) :
    (critOf p rolls = some Crit.success ↔
      p.sides = 20 ∧ p.count = 1 ∧ (rolls.map (fun r => r.value)).head? = some 20) ∧
    (critOf p rolls = some Crit.fumble ↔
      p.sides = 20 ∧ p.count = 1 ∧ (rolls.map (fun r => r.value)).head? = some 1) := by
  unfold critOf
  by_cases h : p.sides = 20 ∧ p.count = 1
  · rw [if_pos h]
    cases rolls with
    | nil =>
      constructor
      · constructor
        · intro hx
          exact Option.noConfusion hx
        · rintro ⟨-, -, hx⟩
          exact Option.noConfusion hx
      · constructor
        · intro hx
          exact Option.noConfusion hx
        · rintro ⟨-, -, hx⟩
          exact Option.noConfusion hx
    | cons r0 rest =>
      simp only [List.head?_cons, List.map_cons]
      by_cases h20 : r0.value = 20
      · rw [if_pos h20]
        constructor
        · simp [h, h20]
        · simp [h, h20]
      · rw [if_neg h20]
        by_cases h1 : r0.value = 1
        · rw [if_pos h1]
          constructor
          · simp [h, h20, h1]
          · simp [h, h1]
        · rw [if_neg h1]
          constructor
          · simp [h, h20]
          · simp [h, h1]
  · rw [if_neg h]
    constructor
    · constructor
      · intro hx
        exact Option.noConfusion hx
      · rintro ⟨h1, h2, -⟩
        exact absurd ⟨h1, h2⟩ h
    · constructor
      · intro hx
        exact Option.noConfusion hx
      · rintro ⟨h1, h2, -⟩
        exact absurd ⟨h1, h2⟩ h

/-! ## Scanner frame lemmas -/

/-- A global-replace pass whose matcher fires at no suffix of the input
returns the input unchanged. -/
theorem scanReplaceGo_id {m : List Char → Option (List Char × List Char)} :
    ∀ (fuel : Nat) (cs : List Char), (cs.tails.all fun t => (m t).isNone) = true →
      scanReplaceGo fuel m cs = cs := by
  intro fuel
  induction fuel with
  | zero =>
    intro cs h
    cases cs <;> rfl
  | succ fuel ih =>
    intro cs h
    cases cs with
    | nil => rfl
    | cons c rest =>
      rw [List.tails_cons, List.all_cons, Bool.and_eq_true] at h
      have h1 : m (c :: rest) = none := Option.isNone_iff_eq_none.mp h.1
      simp only [scanReplaceGo]
      rw [h1]
      rw [ih rest h.2]

theorem scanReplace_id {m : List Char → Option (List Char × List Char)} {cs : List Char}
    (h : (cs.tails.all fun t => (m t).isNone) = true) : scanReplace m cs = cs :=
  scanReplaceGo_id cs.length cs h

theorem grabTag_spec {cs inner after : List Char} (h : grabTag cs = some (inner, after)) :
    cs = inner ++ '>' :: after ∧ inner ≠ [] := by
  unfold grabTag at h
  rcases hdrop : cs.dropWhile (fun c => c ≠ '>') with - | ⟨c0, rest⟩
  · rw [hdrop] at h
    exact Option.noConfusion h
  · rw [hdrop] at h
    have h2 : (if cs.takeWhile (fun c => c ≠ '>') = [] then none
        else some (cs.takeWhile (fun c => c ≠ '>'), rest)) = some (inner, after) := h
    by_cases hne : cs.takeWhile (fun c => c ≠ '>') = []
    · rw [if_pos hne] at h2
      exact Option.noConfusion h2
    · rw [if_neg hne, Option.some.injEq, Prod.mk.injEq] at h2
      have hc0 : c0 = '>' := by
        have hhd := List.head?_dropWhile_not (fun c => decide (c ≠ '>')) cs
        rw [show (List.dropWhile (fun c => decide (c ≠ '>')) cs) =
          List.dropWhile (fun c => c ≠ '>') cs from rfl, hdrop, List.head?_cons] at hhd
        have hh2 : decide (c0 ≠ '>') = false := hhd
        simpa using hh2
      subst hc0
      constructor
      · rw [← h2.1, ← h2.2, ← hdrop]
        exact (List.takeWhile_append_dropWhile _ cs).symm
      · rw [← h2.1]
        exact hne

/-- The tag/text split partitions the input: joining the parts restores it. -/
theorem splitTagsGo_join :
    ∀ (fuel : Nat) (acc cs : List Char), (splitTagsGo fuel acc cs).flatten = acc.reverse ++ cs := by
  intro fuel
  induction fuel with
  | zero =>
    intro acc cs
    cases cs with
    | nil => simp [splitTagsGo]
    | cons c rest => simp [splitTagsGo]
  | succ fuel ih =>
    intro acc cs
    cases cs with
    | nil => simp [splitTagsGo]
    | cons c rest =>
      simp only [splitTagsGo]
      by_cases hc : c = '<'
      · rw [if_pos hc]
        rcases hg : grabTag rest with - | ⟨inner, after⟩
        · rw [ih]
          simp
        · obtain ⟨hrest, -⟩ := grabTag_spec hg
          rw [List.flatten_cons, List.flatten_cons, ih]
          rw [List.reverse_nil, List.nil_append, hrest]
          simp
      · rw [if_neg hc, ih]
        simp

theorem splitTags_join (cs : List Char) : (splitTags cs).flatten = cs := by
  unfold splitTags
  rw [splitTagsGo_join]
  rfl

/-- Parts that start with the tag-open character pass through the plain-dice
pass untouched. -/
theorem dicePartMap_tag {p : List Char} (h : p.head? = some '<') : dicePartMap p = p := by
  cases p with
  | nil => exact Option.noConfusion h
  | cons c rest =>
    rw [List.head?_cons, Option.some.injEq] at h
    subst h
    simp [dicePartMap]

/-! ## Decimal rendering lemmas (for rollAdvantage / rollDisadvantage) -/

theorem digit_char_isDigit {d : Nat} (hd : d < 10) :
    isDigitC (Char.ofNat (48 + d)) = true := by
  interval_cases d <;> decide

theorem digit_char_toNat {d : Nat} (hd : d < 10) : (Char.ofNat (48 + d)).toNat = 48 + d := by
  interval_cases d <;> decide

theorem natDigitsGo_digits :
    ∀ (fuel n : Nat), ∀ c ∈ natDigitsGo fuel n, isDigitC c = true := by
  intro fuel
  induction fuel with
  | zero =>
    intro n c hc
    rw [natDigitsGo, List.mem_singleton] at hc
    subst hc
    exact digit_char_isDigit (Nat.mod_lt n (by omega))
  | succ fuel ih =>
    intro n c hc
    by_cases h : n < 10
    · rw [natDigitsGo, if_pos h, List.mem_singleton] at hc
      subst hc
      exact digit_char_isDigit h
    · rw [natDigitsGo, if_neg h, List.mem_append] at hc
      rcases hc with hc | hc
      · exact ih (n / 10) c hc
      · rw [List.mem_singleton] at hc
        subst hc
        exact digit_char_isDigit (Nat.mod_lt n (by omega))

theorem natDigits_digits (n : Nat) : ∀ c ∈ natDigits n, isDigitC c = true :=
  natDigitsGo_digits n n

theorem natDigits_ne_nil (n : Nat) : natDigits n ≠ [] := by
  unfold natDigits
  cases n with
  | zero => decide
  | succ k =>
    rw [natDigitsGo]
    by_cases h : k + 1 < 10
    · rw [if_pos h]
      exact List.cons_ne_nil _ _
    · rw [if_neg h]
      simp

theorem digitsToNat_append_digit (a : List Char) (c : Char) :
    digitsToNat (a ++ [c]) = digitsToNat a * 10 + (c.toNat - 48) := by
  unfold digitsToNat
  rw [List.foldl_append]
  rfl

theorem natDigitsGo_correct : ∀ (fuel n : Nat), n ≤ fuel →
    digitsToNat (natDigitsGo fuel n) = n := by
  intro fuel
  induction fuel with
  | zero =>
    intro n hn
    interval_cases n
    decide
  | succ fuel ih =>
    intro n hn
    by_cases h : n < 10
    · rw [natDigitsGo, if_pos h]
      show 0 * 10 + ((Char.ofNat (48 + n)).toNat - 48) = n
      rw [digit_char_toNat h]
      omega
    · rw [natDigitsGo, if_neg h, digitsToNat_append_digit]
      rw [ih (n / 10) (by omega)]
      rw [digit_char_toNat (Nat.mod_lt n (by omega))]
      omega

theorem natDigits_correct (n : Nat) : digitsToNat (natDigits n) = n :=
  natDigitsGo_correct n n (Nat.le_refl n)

/-- Parsing the notation built by rollAdvantage / rollDisadvantage: two d20,
keep one, with the rendered signed modifier. -/
theorem parseDice_advProto (c2 : Char) (t : KeepType) (sign : Char) (ds : List Char)
    (hc2 : (c2 = 'h' ∧ t = KeepType.highest) ∨ (c2 = 'l' ∧ t = KeepType.lowest))
    (hsign : sign = '+' ∨ sign = '-')
    (hds0 : ds ≠ []) (hds : ∀ c ∈ ds, isDigitC c = true) :
    parseDice ('2' :: 'd' :: '2' :: '0' :: 'k' :: c2 :: '1' :: sign :: ds) =
      some ⟨2, 20, (if sign = '+' then (digitsToNat ds : Int) else -(digitsToNat ds : Int)),
        some ⟨t, 1⟩, ⟨'2' :: 'd' :: '2' :: '0' :: 'k' :: c2 :: '1' :: sign :: ds⟩⟩ := by
  have hsignd : ∀ c, (sign :: ds).head? = some c → isDigitC c = false := by
    intro c hc
    rw [List.head?_cons, Option.some.injEq] at hc
    subst hc
    rcases hsign with rfl | rfl <;> decide
  have hspan1 : spanDigits ('2' :: 'd' :: '2' :: '0' :: 'k' :: c2 :: '1' :: sign :: ds) =
      (['2'], 'd' :: '2' :: '0' :: 'k' :: c2 :: '1' :: sign :: ds) := by
    rw [show ('2' :: 'd' :: '2' :: '0' :: 'k' :: c2 :: '1' :: sign :: ds : List Char) =
      ['2'] ++ 'd' :: '2' :: '0' :: 'k' :: c2 :: '1' :: sign :: ds from rfl]
    exact spanDigits_append
      (by intro c hc; rw [List.mem_singleton] at hc; subst hc; decide)
      (by intro c hc; rw [List.head?_cons, Option.some.injEq] at hc; subst hc; decide)
  have hsplit : (spanDigits ('2' :: 'd' :: '2' :: '0' :: 'k' :: c2 :: '1' :: sign :: ds)).2 =
      'd' :: '2' :: '0' :: 'k' :: c2 :: '1' :: sign :: ds := by rw [hspan1]
  rw [parseDice_eq_cons hsplit, if_pos rfl]
  have hspan2 : spanDigits ('2' :: '0' :: 'k' :: c2 :: '1' :: sign :: ds) =
      (['2', '0'], 'k' :: c2 :: '1' :: sign :: ds) := by
    rw [show ('2' :: '0' :: 'k' :: c2 :: '1' :: sign :: ds : List Char) =
      ['2', '0'] ++ 'k' :: c2 :: '1' :: sign :: ds from rfl]
    exact spanDigits_append
      (by intro c hc; rw [List.mem_cons, List.mem_singleton] at hc;
          rcases hc with rfl | rfl <;> decide)
      (by intro c hc; rw [List.head?_cons, Option.some.injEq] at hc; subst hc; decide)
  have hq1 : (spanDigits ('2' :: '0' :: 'k' :: c2 :: '1' :: sign :: ds)).1 = ['2', '0'] := by
    rw [hspan2]
  have hq2 : (spanDigits ('2' :: '0' :: 'k' :: c2 :: '1' :: sign :: ds)).2 =
      'k' :: c2 :: '1' :: sign :: ds := by rw [hspan2]
  rw [hq1, hq2, if_neg (by decide : ¬(['2', '0'] : List Char) = [])]
  have hspan3 : spanDigits ('1' :: sign :: ds) = (['1'], sign :: ds) := by
    rw [show ('1' :: sign :: ds : List Char) = ['1'] ++ sign :: ds from rfl]
    exact spanDigits_append
      (by intro c hc; rw [List.mem_singleton] at hc; subst hc; decide) hsignd
  have hkeep : parseKeepOpt ('k' :: c2 :: '1' :: sign :: ds) =
      some (some ⟨t, 1⟩, sign :: ds) := by
    rcases hc2 with ⟨rfl, rfl⟩ | ⟨rfl, rfl⟩
    · rw [parseKeepOpt_kh, hspan3]
      rw [if_neg (by decide : ¬(['1'] : List Char) = [])]
      rfl
    · rw [parseKeepOpt_kl, hspan3]
      rw [if_neg (by decide : ¬(['1'] : List Char) = [])]
      rfl
  rw [hkeep, Option.some_bind]
  have hmod : parseModEnd (sign :: ds) =
      some (if sign = '+' then (digitsToNat ds : Int) else -(digitsToNat ds : Int)) := by
    rcases hsign with rfl | rfl
    · rw [parseModEnd_cons_plus, if_pos ⟨hds0, List.all_eq_true.mpr hds⟩, if_pos rfl]
    · rw [parseModEnd_cons_minus, if_pos ⟨hds0, List.all_eq_true.mpr hds⟩,
        if_neg (by decide : ¬('-' : Char) = '+')]
  rw [show parseModEnd ((some ⟨t, 1⟩, sign :: ds) : Option Keep × List Char).2 =
    parseModEnd (sign :: ds) from rfl, hmod, Option.map_some']
  rw [hspan1]
  rfl

theorem parse_advdis (c2 : Char) (t : KeepType) (m : Int)
    (hc2 : (c2 = 'h' ∧ t = KeepType.highest) ∨ (c2 = 'l' ∧ t = KeepType.lowest)) :
    parse ⟨'2' :: 'd' :: '2' :: '0' :: 'k' :: c2 :: '1' :: intModStr m⟩ =
      some ⟨2, 20, m, some ⟨t, 1⟩,
        ⟨'2' :: 'd' :: '2' :: '0' :: 'k' :: c2 :: '1' :: intModStr m⟩⟩ := by
  have hc2f : toLowerC c2 = c2 ∧ isWS c2 = false := by
    rcases hc2 with ⟨rfl, -⟩ | ⟨rfl, -⟩ <;> exact ⟨by decide, by decide⟩
  by_cases hm : 0 ≤ m
  · have hi : intModStr m = '+' :: natDigits m.toNat := by rw [intModStr, if_pos hm]
    rw [hi]
    unfold parse
    rw [show (String.mk ('2' :: 'd' :: '2' :: '0' :: 'k' :: c2 :: '1' :: '+' ::
      natDigits m.toNat)).toList =
      '2' :: 'd' :: '2' :: '0' :: 'k' :: c2 :: '1' :: '+' :: natDigits m.toNat from rfl]
    rw [cleanL_fixed (by
      intro c hc
      simp only [List.mem_cons] at hc
      rcases hc with rfl | rfl | rfl | rfl | rfl | rfl | rfl | rfl | hc
      · exact ⟨by decide, by decide⟩
      · exact ⟨by decide, by decide⟩
      · exact ⟨by decide, by decide⟩
      · exact ⟨by decide, by decide⟩
      · exact ⟨by decide, by decide⟩
      · exact hc2f
      · exact ⟨by decide, by decide⟩
      · exact ⟨by decide, by decide⟩
      · exact ⟨digit_toLowerC (natDigits_digits _ c hc), digit_not_WS (natDigits_digits _ c hc)⟩)]
    unfold parseCore
    rw [parseDice_advProto c2 t '+' (natDigits m.toNat) hc2 (Or.inl rfl)
      (natDigits_ne_nil _) (natDigits_digits _), Option.some_orElse]
    rw [if_pos rfl, natDigits_correct, Int.toNat_of_nonneg hm]
  · have hi : intModStr m = '-' :: natDigits (-m).toNat := by rw [intModStr, if_neg hm]
    rw [hi]
    unfold parse
    rw [show (String.mk ('2' :: 'd' :: '2' :: '0' :: 'k' :: c2 :: '1' :: '-' ::
      natDigits (-m).toNat)).toList =
      '2' :: 'd' :: '2' :: '0' :: 'k' :: c2 :: '1' :: '-' :: natDigits (-m).toNat from rfl]
    rw [cleanL_fixed (by
      intro c hc
      simp only [List.mem_cons] at hc
      rcases hc with rfl | rfl | rfl | rfl | rfl | rfl | rfl | rfl | hc
      · exact ⟨by decide, by decide⟩
      · exact ⟨by decide, by decide⟩
      · exact ⟨by decide, by decide⟩
      · exact ⟨by decide, by decide⟩
      · exact ⟨by decide, by decide⟩
      · exact hc2f
      · exact ⟨by decide, by decide⟩
      · exact ⟨by decide, by decide⟩
      · exact ⟨digit_toLowerC (natDigits_digits _ c hc), digit_not_WS (natDigits_digits _ c hc)⟩)]
    unfold parseCore
    rw [parseDice_advProto c2 t '-' (natDigits (-m).toNat) hc2 (Or.inr rfl)
      (natDigits_ne_nil _) (natDigits_digits _), Option.some_orElse]
    rw [if_neg (by decide : ¬('-' : Char) = '+'), natDigits_correct,
      Int.toNat_of_nonneg (by omega), neg_neg]


theorem recordHistory_head (h : List RollResult) (r : RollResult) :
    (recordHistory h r).head? = some r := by
  unfold recordHistory
  by_cases hl : (r :: h).length > maxHistory
  · rw [if_pos hl]
    cases h with
    | nil => simp [maxHistory] at hl
    | cons b t =>
      rw [show (r :: b :: t).dropLast = r :: (b :: t).dropLast from rfl, List.head?_cons]
  · rw [if_neg hl, List.head?_cons]

theorem recordHistory_length (h : List RollResult) (r : RollResult)
    (hcap : h.length ≤ maxHistory) : (recordHistory h r).length ≤ maxHistory := by
  unfold recordHistory
  by_cases hl : (r :: h).length > maxHistory
  · rw [if_pos hl, List.length_dropLast, List.length_cons]
    omega
  · rw [if_neg hl, List.length_cons]
    rw [List.length_cons] at hl
    omega

theorem recordHistory_evict (h : List RollResult) (r : RollResult)
    (hfull : h.length = maxHistory) : recordHistory h r = r :: h.dropLast := by
  unfold recordHistory
  rw [if_pos (by rw [List.length_cons]; omega)]
  cases h with
  | nil => simp [maxHistory] at hfull
  | cons b t => rfl

theorem parseDice_count {cs : List Char} {p : Parsed} (h : parseDice cs = some p)
    (hempty : (spanDigits cs).1 = []) : p.count = 1 := by
  rcases hsplit : (spanDigits cs).2 with - | ⟨c, rest2⟩
  · rw [parseDice_eq_nil hsplit] at h
    exact Option.noConfusion h
  · rw [parseDice_eq_cons hsplit] at h
    by_cases hc : c = 'd'
    · rw [if_pos hc] at h
      by_cases hq : (spanDigits rest2).1 = []
      · rw [if_pos hq] at h
        exact Option.noConfusion h
      · rw [if_neg hq] at h
        rcases hkp : parseKeepOpt (spanDigits rest2).2 with - | ⟨kp, rest4⟩
        · rw [hkp, Option.none_bind] at h
          exact Option.noConfusion h
        · rw [hkp, Option.some_bind] at h
          rcases hm : parseModEnd rest4 with - | m
          · rw [show parseModEnd (kp, rest4).2 = parseModEnd rest4 from rfl, hm] at h
            exact Option.noConfusion h
          · rw [show parseModEnd (kp, rest4).2 = parseModEnd rest4 from rfl, hm,
              Option.map_some', Option.some.injEq] at h
            rw [← h]
            show (if (spanDigits cs).1 = [] then 1 else digitsToNat (spanDigits cs).1) = 1
            rw [if_pos hempty]
    · rw [if_neg hc] at h
      exact Option.noConfusion h

/-! ## The claims -/

/-- C3 counterexample: the input 1d0 parses through the dice grammar to a
descriptor with sides equal to 0 but count equal to 1, so the claimed
data-model invariant (sides equal to 0 implies count equal to 0 and no keep
rule) fails on parse output. -/
theorem C3_counterexample : (parse "1d0").map (fun p => (p.sides, p.count)) = some (0, 1) := by
  decide

/-- C3 (amended): every descriptor produced by the bare-integer
(modifier-only) branch of parse satisfies the invariant sides equal to 0,
count equal to 0 and keepRule absent; the invariant does not extend to dice
notations with a zero sides term such as 1d0. -/
theorem C3_flat_invariant (s : String) (p : Parsed)
    (hb : specBareInt (cleanL s.toList)) (hp : parse s = some p) :
    p.sides = 0 ∧ p.count = 0 ∧ p.keep = none := by
  unfold parse at hp
  rw [parseCore_of_bareInt hb] at hp
  obtain ⟨h1, h2, h3⟩ := parseFlat_shape hp
  exact ⟨h2, h1, h3⟩

/-- C3 witness: the bare integer plus-5 parses to a modifier-only descriptor. -/
theorem C3_witness :
    (parse "+5").map (fun p => (p.sides, p.count, p.keep)) = some (0, 0, none) := by
  have hb : specBareInt (cleanL "+5".toList) :=
    ⟨['+'], ['5'], Or.inr (Or.inl rfl), by decide, by decide, by
      intro c hc
      rw [List.mem_singleton] at hc
      subst hc
      decide⟩
  have hp : parse "+5" = some ⟨0, 0, 5, none, "+5"⟩ := by decide
  have h := C3_flat_invariant "+5" ⟨0, 0, 5, none, "+5"⟩ hb hp
  rw [hp, Option.map_some', h.1, h.2.1, h.2.2]

/-- C9: parse is idempotent on its own canonical form: re-parsing the
canonical notation of any successful parse yields the same canonical
notation. -/
theorem C9_parse_idempotent (x : String) (p : Parsed) (h : parse x = some p) :
    (parse p.canonical).map (fun q => q.canonical) = some p.canonical := by
  rw [parse_canonical_idem_core h, Option.map_some']

/-- C9 witness at the notation 2D6 +3, whose canonical form is 2d6+3. -/
theorem C9_witness : (parse "2d6+3").map (fun q => q.canonical) = some "2d6+3" := by
  have h := C9_parse_idempotent "2D6 +3" ⟨2, 6, 3, none, "2d6+3"⟩ (by decide)
  exact h

/-- C10: a bare-integer (modifier-only) notation resolves without error to a
result with no outcomes, dice total 0, grand total equal to the modifier, no
critical flag, and the result is recorded into the history at position 0. -/
theorem C10_flat_roll (s : String) (draws : Nat → Nat) (hist : List RollResult)
    (hb : specBareInt (cleanL s.toList)) :
    ∃ r h2, roll s draws hist = some (r, h2) ∧ r.rolls = [] ∧ r.diceTotal = 0 ∧
      r.total = r.modifier ∧ r.critical = none ∧ h2 = recordHistory hist r ∧
      h2.head? = some r := by
  have hps : (parseCore (cleanL s.toList)).isSome := (parseCore_isSome_iff _).mpr (Or.inr hb)
  obtain ⟨p, hp⟩ := Option.isSome_iff_exists.mp hps
  have hp' : parse s = some p := hp
  have hshape : p.count = 0 ∧ p.sides = 0 ∧ p.keep = none := by
    rw [parseCore_of_bareInt hb] at hp
    obtain ⟨h1, h2, h3⟩ := parseFlat_shape hp
    exact ⟨h1, h2, h3⟩
  have hrolls : resolveRolls p draws = [] := by
    rw [resolveRolls_none hshape.2.2, hshape.1]
    rfl
  rw [roll_eq hp' draws hist]
  refine ⟨rollCore p s draws, recordHistory hist (rollCore p s draws), rfl, ?_, ?_, ?_, ?_,
    rfl, recordHistory_head hist (rollCore p s draws)⟩
  · show resolveRolls p draws = []
    exact hrolls
  · show keptSum (resolveRolls p draws) = 0
    rw [hrolls]
    rfl
  · show (keptSum (resolveRolls p draws) : Int) + p.modifier = p.modifier
    rw [hrolls]
    show ((0 : Nat) : Int) + p.modifier = p.modifier
    omega
  · show critOf p (resolveRolls p draws) = none
    unfold critOf
    rw [if_neg]
    rintro ⟨h20, -⟩
    rw [hshape.2.1] at h20
    exact absurd h20 (by decide)

/-- C10 witness: rolling the bare modifier plus-5 against the empty history. -/
theorem C10_witness :
    (roll "+5" (fun _ => 1) []).map (fun x => (x.1.rolls, x.1.total, x.1.critical)) =
      some ([], 5, none) := by
  have hb : specBareInt (cleanL "+5".toList) :=
    ⟨['+'], ['5'], Or.inr (Or.inl rfl), by decide, by decide, by
      intro c hc
      rw [List.mem_singleton] at hc
      subst hc
      decide⟩
  obtain ⟨r, h2, hroll, -, -, -, -, -, -⟩ := C10_flat_roll "+5" (fun _ => 1) [] hb
  rw [hroll]
  have : r = rollCore ⟨0, 0, 5, none, "+5"⟩ "+5" (fun _ => 1) := by
    have := roll_eq (s := "+5") (p := ⟨0, 0, 5, none, "+5"⟩) (by decide) (fun _ => 1) []
    rw [this, Option.some.injEq, Prod.mk.injEq] at hroll
    exact hroll.1.symm
  rw [this, Option.map_some']
  rfl

/-- C2: with a keep rule, resolution marks exactly min(keep count, count)
outcomes as kept; draw order and values are preserved; the selection comes
from a stable sort of (value, index) pairs that is strictly ordered by value
(descending for highest, ascending for lowest) with ties broken by earlier
draw index; the dice total is the sum of kept values; and 4d6kh3 on scripted
draws 2, 5, 1, 6 keeps 2, 5 and 6 (dropping the 1) for a kept total of 13. -/
theorem C2_keep_rule (p : Parsed) (k : Keep) (draws : Nat → Nat) (s : String)
    (hk : p.keep = some k) :
    ((resolveRolls p draws).filter (fun r => r.kept)).length = min k.count p.count ∧
    (resolveRolls p draws).map (fun r => r.value) = (List.range p.count).map draws ∧
    (sortPairs k.type (pairsOf ((List.range p.count).map fun i => ⟨draws i, true⟩))).Perm
      (pairsOf ((List.range p.count).map fun i => ⟨draws i, true⟩)) ∧
    List.Pairwise (lexStrict k.type)
      (sortPairs k.type (pairsOf ((List.range p.count).map fun i => ⟨draws i, true⟩))) ∧
    (rollCore p s draws).diceTotal =
      (((resolveRolls p draws).filter (fun r => r.kept)).map (fun r => r.value)).sum ∧
    (roll "4d6kh3" (scripted [2, 5, 1, 6]) []).map (fun x => (x.1.rolls, x.1.diceTotal)) =
      some ([⟨2, true⟩, ⟨5, true⟩, ⟨1, false⟩, ⟨6, true⟩], 13) := by
  refine ⟨resolveRolls_kept_count hk draws, resolveRolls_values p draws,
    sortPairs_perm _ _, sortPairs_pairwise (pairsOf_pairwise _), ?_, by decide⟩
  exact keptSum_eq _

/-- C2 witness: 4d6kh3 with scripted draws 2, 5, 1, 6 keeps exactly
min(3, 4) = 3 dice. -/
theorem C2_witness :
    ((resolveRolls ⟨4, 6, 0, some ⟨KeepType.highest, 3⟩, "4d6kh3"⟩
      (scripted [2, 5, 1, 6])).filter (fun r => r.kept)).length = min 3 4 := by
  have h := C2_keep_rule ⟨4, 6, 0, some ⟨KeepType.highest, 3⟩, "4d6kh3"⟩
    ⟨KeepType.highest, 3⟩ (scripted [2, 5, 1, 6]) "4d6kh3" rfl
  exact h.1

/-- C1 counterexample: the notation 1d20kh1 carries a keep rule, yet rolling
it with a scripted natural 20 sets criticalFlag to success, contradicting the
claim that keep-rule expressions never set a critical flag. -/
theorem C1_counterexample :
    (parse "1d20kh1").map (fun p => p.keep) = some (some ⟨KeepType.highest, 1⟩) ∧
    (roll "1d20kh1" (fun _ => 20) []).map (fun x => x.1.critical) =
      some (some Crit.success) := by
  exact ⟨by decide, by decide⟩

/-- C1 (amended): criticalFlag is success exactly when the descriptor has
sides 20 and count 1 and the single first outcome is 20, and fumble exactly
when that condition holds with outcome 1, regardless of any keep rule; when
count is not 1 or sides is not 20 the flag is never set.  (The keep rule does
not suppress criticals: 1d20kh1 can still crit.) -/
theorem C1_critical_flag (s : String) (draws : Nat → Nat) (hist : List RollResult)
    (p : Parsed) (r : RollResult) (h2 : List RollResult)
    (hp : parse s = some p) (hr : roll s draws hist = some (r, h2)) :
    (r.critical = some Crit.success ↔
      p.sides = 20 ∧ p.count = 1 ∧ (r.rolls.map (fun x => x.value)).head? = some 20) ∧
    (r.critical = some Crit.fumble ↔
      p.sides = 20 ∧ p.count = 1 ∧ (r.rolls.map (fun x => x.value)).head? = some 1) ∧
    (¬(p.sides = 20 ∧ p.count = 1) → r.critical = none) := by
  rw [roll_eq hp draws hist, Option.some.injEq, Prod.mk.injEq] at hr
  have hrr : r = rollCore p s draws := hr.1.symm
  subst hrr
  refine ⟨(critOf_iff p (resolveRolls p draws)).1, (critOf_iff p (resolveRolls p draws)).2, ?_⟩
  intro hn
  show critOf p (resolveRolls p draws) = none
  unfold critOf
  rw [if_neg hn]

/-- C1 witness: a plain 1d20 with a scripted 20 is a critical success. -/
theorem C1_witness :
    (rollCore ⟨1, 20, 0, none, "1d20"⟩ "1d20" (fun _ => 20)).critical = some Crit.success := by
  have h := C1_critical_flag "1d20" (fun _ => 20) [] ⟨1, 20, 0, none, "1d20"⟩
    (rollCore ⟨1, 20, 0, none, "1d20"⟩ "1d20" (fun _ => 20))
    (recordHistory [] (rollCore ⟨1, 20, 0, none, "1d20"⟩ "1d20" (fun _ => 20)))
    (by decide) (roll_eq (by decide) (fun _ => 20) [])
  exact h.1.mpr ⟨rfl, rfl, by decide⟩

/-- C5: parse succeeds exactly when the cleaned input matches the dice
grammar (optional count, d, sides, optional kh/kl keep, optional signed
modifier) or a bare signed integer, and fails otherwise; 2d6+3 yields
count 2, sides 6, modifier 3 and no keep rule; an omitted count defaults
to 1; and a bare integer yields a modifier-only descriptor with sides 0 and
count 0. -/
theorem C5_parse_grammar :
    (∀ s : String, (parse s).isSome ↔
      (specDiceGrammar (cleanL s.toList) ∨ specBareInt (cleanL s.toList))) ∧
    parse "2d6+3" = some ⟨2, 6, 3, none, "2d6+3"⟩ ∧
    (∀ (cs : List Char) (p : Parsed), parseCore ('d' :: cs) = some p → p.count = 1) ∧
    (∀ (s : String) (p : Parsed), specBareInt (cleanL s.toList) → parse s = some p →
      p.sides = 0 ∧ p.count = 0 ∧ p.keep = none) := by
  refine ⟨fun s => parseCore_isSome_iff (cleanL s.toList), by decide, ?_, ?_⟩
  · intro cs p hp
    have hempty : (spanDigits ('d' :: cs)).1 = [] := by
      unfold spanDigits
      rw [List.takeWhile_cons]
      rw [show isDigitC 'd' = false from by decide]
      rfl
    have hflat : parseFlat ('d' :: cs) = none := by
      rw [parseFlat_cons_other cs (by decide) (by decide)]
      rw [if_neg]
      intro hall
      rw [List.all_cons, Bool.and_eq_true] at hall
      exact absurd hall.1 (by decide)
    unfold parseCore at hp
    rcases hd : parseDice ('d' :: cs) with - | q
    · rw [hd, Option.none_orElse, hflat] at hp
      exact Option.noConfusion hp
    · rw [hd, Option.some_orElse, Option.some.injEq] at hp
      subst hp
      exact parseDice_count hd hempty
  · intro s p hb hp
    unfold parse at hp
    rw [parseCore_of_bareInt hb] at hp
    obtain ⟨h1, h2, h3⟩ := parseFlat_shape hp
    exact ⟨h2, h1, h3⟩

/-- C5 witness: d8 parses with the count defaulting to 1. -/
theorem C5_witness : (parse "d8").map (fun p => p.count) = some 1 := by
  have hp : parseCore ('d' :: "8".toList) = some ⟨1, 8, 0, none, "d8"⟩ := by decide
  have h := C5_parse_grammar.2.2.1 "8".toList ⟨1, 8, 0, none, "d8"⟩ hp
  rw [show parse "d8" = some ⟨1, 8, 0, none, "d8"⟩ from by decide, Option.map_some', h]

set_option maxRecDepth 40000 in
/-- C6: the history never exceeds its capacity of 50: recording keeps the
newest result at position 0, recording at capacity evicts exactly the oldest
(last) entry, every successful roll records through recordHistory, and after
51 resolutions from an empty history the history holds 50 entries with the
newest (the roll of plus-50) at position 0 and the oldest (the roll of
plus-0) absent. -/
theorem C6_history (h : List RollResult) (r : RollResult) (s : String)
    (draws : Nat → Nat) (hist : List RollResult) (res : RollResult) (h2 : List RollResult)
    (hcap : h.length ≤ maxHistory) (hr : roll s draws hist = some (res, h2)) :
    (recordHistory h r).length ≤ maxHistory ∧
    (recordHistory h r).head? = some r ∧
    (h.length = maxHistory → recordHistory h r = r :: h.dropLast) ∧
    h2 = recordHistory hist res ∧
    (natHist 51).length = 50 ∧
    ((natHist 51).map (fun x => x.display)).head? = some "+50" ∧
    ((natHist 51).map (fun x => x.display)).contains "+0" = false := by
  refine ⟨recordHistory_length h r hcap, recordHistory_head h r,
    recordHistory_evict h r, ?_, by decide, by decide, by decide⟩
  rcases hp : parse s with - | p
  · rw [roll_none hp draws hist] at hr
    exact Option.noConfusion hr
  · rw [roll_eq hp draws hist, Option.some.injEq, Prod.mk.injEq] at hr
    rw [hr.2.symm, hr.1]

/-- C6 witness: recording on a history of one entry keeps the new result at
position 0. -/
theorem C6_witness :
    (recordHistory [] (rollCore ⟨0, 0, 5, none, "+5"⟩ "+5" (fun _ => 1))).head? =
      some (rollCore ⟨0, 0, 5, none, "+5"⟩ "+5" (fun _ => 1)) := by
  have h := C6_history [] (rollCore ⟨0, 0, 5, none, "+5"⟩ "+5" (fun _ => 1)) "+5"
    (fun _ => 1) [] (rollCore ⟨0, 0, 5, none, "+5"⟩ "+5" (fun _ => 1))
    (recordHistory [] (rollCore ⟨0, 0, 5, none, "+5"⟩ "+5" (fun _ => 1)))
    (by decide) (roll_eq (by decide) (fun _ => 1) [])
  exact h.2.1

/-- C7: rollAdvantage resolves exactly the notation 2d20kh1 followed by the
rendered modifier and rollDisadvantage exactly 2d20kl1 with that modifier,
through the same roll algorithm; advantage with modifier 4 is literally the
roll of 2d20kh1+4; and the built notations parse to the expected descriptors
(count 2, sides 20, keep highest/lowest 1, the given modifier). -/
theorem C7_advantage_equiv (m : Int) (draws : Nat → Nat) (hist : List RollResult) :
    rollAdvantage m draws hist = roll (advNotation m) draws hist ∧
    rollDisadvantage m draws hist = roll (disNotation m) draws hist ∧
    rollAdvantage 4 draws hist = roll "2d20kh1+4" draws hist ∧
    (parse (advNotation m)).map (fun p => (p.count, p.sides, p.modifier, p.keep)) =
      some (2, 20, m, some ⟨KeepType.highest, 1⟩) ∧
    (parse (disNotation m)).map (fun p => (p.count, p.sides, p.modifier, p.keep)) =
      some (2, 20, m, some ⟨KeepType.lowest, 1⟩) := by
  refine ⟨rfl, rfl, ?_, ?_, ?_⟩
  · show roll (advNotation 4) draws hist = roll "2d20kh1+4" draws hist
    rw [show advNotation 4 = "2d20kh1+4" from by decide]
  · have h := parse_advdis 'h' KeepType.highest m (Or.inl ⟨rfl, rfl⟩)
    rw [show advNotation m = ⟨'2' :: 'd' :: '2' :: '0' :: 'k' :: 'h' :: '1' :: intModStr m⟩
      from rfl, h, Option.map_some']
  · have h := parse_advdis 'l' KeepType.lowest m (Or.inr ⟨rfl, rfl⟩)
    rw [show disNotation m = ⟨'2' :: 'd' :: '2' :: '0' :: 'k' :: 'l' :: '1' :: intModStr m⟩
      from rfl, h, Option.map_some']

set_option maxRecDepth 40000 in
/-- C4 counterexample: the entire input is a single markup tag region (its
tag/text split is exactly one tag part), yet annotate rewrites its interior:
the attack-bonus pass matches plus-5 to hit inside the attribute value, so it
is false that no scanner pass ever rewrites text inside a tag region. -/
theorem C4_counterexample :
    splitTags "<img alt=\"+5 to hit\">".toList = [[], "<img alt=\"+5 to hit\">".toList, []] ∧
    wrapAllDice "<img alt=\"+5 to hit\">" ≠ "<img alt=\"+5 to hit\">" := by
  exact ⟨by decide, by decide⟩

/-- C4 (amended): only the plain-dice pass respects tag boundaries: its
tag/text split partitions the input exactly (the parts rejoin byte-for-byte),
every part beginning with the tag-open character passes through that pass
unchanged, and any global-replace pass leaves an input without matches
byte-for-byte unchanged; the link, attack-bonus and saving-throw passes scan
the whole string, including tag regions, and can rewrite inside a tag. -/
theorem C4_dice_pass_frame :
    (∀ cs : List Char, (splitTags cs).flatten = cs) ∧
    (∀ p : List Char, p.head? = some '<' → dicePartMap p = p) ∧
    (∀ (m : List Char → Option (List Char × List Char)) (cs : List Char),
      (cs.tails.all fun t => (m t).isNone) = true → scanReplace m cs = cs) := by
  exact ⟨splitTags_join, fun p h => dicePartMap_tag h, fun m cs h => scanReplace_id h⟩

/-- C4 witness: the dice matcher fires nowhere in plain prose, so the pass
returns it unchanged. -/
theorem C4_witness : scanReplace diceTry "no dice in this prose".toList =
    "no dice in this prose".toList := by
  exact C4_dice_pass_frame.2.2 diceTry "no dice in this prose".toList (by decide)

set_option maxRecDepth 40000 in
/-- C8 counterexample: scanning the sentence yields exactly two addressable
tokens (the attack bonus 1d20+7 and the damage dice 2d6+4), not three as
claimed. -/
theorem C8_counterexample :
    extractTokens (wrapAllDice "Attack: +7 to hit, deals 2d6+4 slashing") =
      ["1d20+7", "2d6+4"] ∧
    (extractTokens (wrapAllDice "Attack: +7 to hit, deals 2d6+4 slashing")).length ≠ 3 := by
  exact ⟨by decide, by decide⟩

set_option maxRecDepth 40000 in
/-- C8 (amended): scanning that sentence yields exactly two tokens in
left-to-right order, an attack-bonus token with normalized notation 1d20+7
followed by a plain-dice token 2d6+4, and annotate leaves the literal word
deals (with its surrounding punctuation and spacing) untouched. -/
theorem C8_scan_example :
    wrapAllDice "Attack: +7 to hit, deals 2d6+4 slashing" =
      "Attack: <span class=\"dice-roll\" data-dice=\"1d20+7\" role=\"button\" tabindex=\"0\">+7</span> to hit, deals <span class=\"dice-roll\" data-dice=\"2d6+4\" role=\"button\" tabindex=\"0\">2d6+4</span> slashing" ∧
    extractTokens (wrapAllDice "Attack: +7 to hit, deals 2d6+4 slashing") =
      ["1d20+7", "2d6+4"] ∧
    containsSeq ", deals ".toList
      (wrapAllDice "Attack: +7 to hit, deals 2d6+4 slashing").toList = true := by
  refine ⟨by decide, by decide, by decide⟩
